import Mathlib

/-!
Verification development for the tweet-stream award-extraction pipeline
(spike detection, anchor-rule relation extraction, canonicalization,
plurality voting).  Python sources are embedded shallowly: strings are
Lean `String`s (the external unicode repair `fix_text ∘ unidecode` is
modelled as the identity, and the regex classes `\s`/`\w` are modelled
over ASCII, which covers every input used below), dict/Counter state is
insertion-ordered association lists, floats are rationals, and the
external spaCy NER capability is an oracle parameter.
-/

namespace GG

/-! ### Character classes (ASCII model of the Python regex classes) -/

/-- Python regex `\s` (ASCII range). -/
def isSpaceChar (c : Char) : Bool :=
  c == ' ' || c == '\t' || c == '\n' || c == '\x0d' || c == '\x0b' || c == '\x0c'

/-- Python regex `\w` (ASCII range). -/
def isWordChar (c : Char) : Bool :=
  ('a' ≤ c && c ≤ 'z') || ('A' ≤ c && c ≤ 'Z') || ('0' ≤ c && c ≤ '9') || c == '_'

def isAsciiDigit (c : Char) : Bool := '0' ≤ c && c ≤ '9'

def isAsciiLetter (c : Char) : Bool :=
  ('a' ≤ c && c ≤ 'z') || ('A' ≤ c && c ≤ 'Z')

/-! ### Small Python string helpers -/

/-- Python `s.strip()` (ASCII whitespace model). -/
def pyStrip (s : String) : String :=
  String.mk (((s.data.dropWhile (fun c => isSpaceChar c)).reverse.dropWhile
    (fun c => isSpaceChar c)).reverse)

/-- Python `s.strip(chars)`: strip any of the given characters from both ends. -/
def pyStripChars (chars : List Char) (s : String) : String :=
  String.mk (((s.data.dropWhile (fun c => chars.contains c)).reverse.dropWhile
    (fun c => chars.contains c)).reverse)

/-- Python `s.lower()` (ASCII model). -/
def pyLower (s : String) : String := String.mk (s.data.map Char.toLower)

/-- Fuel-driven scanner for `str.replace`: replaces each non-overlapping
occurrence of `pat` (nonempty), scanning left to right, like Python. -/
def replaceF (pat rep : List Char) : Nat → List Char → List Char
  | 0, l => l
  | _ + 1, [] => []
  | fuel + 1, c :: cs =>
    if pat.isPrefixOf (c :: cs) then
      rep ++ replaceF pat rep fuel (cs.drop (pat.length - 1))
    else
      c :: replaceF pat rep fuel cs

/-- Python `s.replace(pat, rep)` for a nonempty `pat`. -/
def pyReplace (s pat rep : String) : String :=
  String.mk (replaceF pat.data rep.data s.data.length s.data)

/-- Is `pat` a substring of `l`?  (Python `pat in s`.) -/
def hasSubList (pat : List Char) : List Char → Bool
  | [] => pat.isEmpty
  | c :: cs => pat.isPrefixOf (c :: cs) || hasSubList pat cs

def hasSub (pat s : String) : Bool := hasSubList pat.data s.data

/-! ### Regex-substitution scanners

`subScanF m rep` mirrors `re.sub(pattern, rep, s)` for a pattern whose
matches are recognised by `m` (returning the match length at the current
position): each match is replaced by the single character `rep` and
scanning resumes after the match.  The fuel is the input length. -/

def subScanF (m : List Char → Option Nat) (rep : Char) : Nat → List Char → List Char
  | 0, l => l
  | _ + 1, [] => []
  | fuel + 1, c :: cs =>
    match m (c :: cs) with
    | some n => rep :: subScanF m rep fuel (cs.drop (n - 1))
    | none => c :: subScanF m rep fuel cs

def subScan (m : List Char → Option Nat) (rep : Char) (l : List Char) : List Char :=
  subScanF m rep l.length l

/-- Matcher for `https?://\S+` (case-sensitive, as in the source). -/
def urlMatch (l : List Char) : Option Nat :=
  let tryScheme : List Char → Option Nat := fun scheme =>
    if scheme.isPrefixOf l then
      let rest := l.drop scheme.length
      let n := (rest.takeWhile (fun c => !isSpaceChar c)).length
      if 1 ≤ n then some (scheme.length + n) else none
    else none
  match tryScheme "https://".data with
  | some n => some n
  | none => tryScheme "http://".data

/-- Matcher for `@\w+`. -/
def handleMatch : List Char → Option Nat
  | '@' :: rest =>
    let n := (rest.takeWhile isWordChar).length
    if 1 ≤ n then some (1 + n) else none
  | _ => none

/-- Matcher for `#\w+`. -/
def hashtagMatch : List Char → Option Nat
  | '#' :: rest =>
    let n := (rest.takeWhile isWordChar).length
    if 1 ≤ n then some (1 + n) else none
  | _ => none

/-- Matcher for `\s+`. -/
def wsMatch (l : List Char) : Option Nat :=
  let n := (l.takeWhile isSpaceChar).length
  if 1 ≤ n then some n else none

/-- `DASHES = [‒–—−-]`, each normalized to `'-'`. -/
def dashToHyphen (c : Char) : Char :=
  if c == '‒' || c == '–' || c == '—' || c == '−' || c == '-' then '-'
  else c

/-- `PUNCT_STRIP = ["'“”‘’`(){}\[\]]`, each replaced by a space. -/
def punctStripChars : List Char :=
  ['\x22', '\x27', '“', '”', '‘', '’', '\x60', '(', ')', '\x7b', '\x7d', '[', ']']

def punctToSpace (c : Char) : Char :=
  if punctStripChars.contains c then ' ' else c

/-! ### Stable insertion sort (model of Python's stable `sorted`/`list.sort`)

`le x y = true` means "`x` may stay before `y`".  `insSorted` inserts `x`
before the first element `y` with `le x y`; since `x` always stands for an
element that occurred earlier in the original list than everything in the
target list, this realises exactly the stability guarantee of Python's
sort (equal elements keep their original relative order). -/

def insSorted {α : Type} (le : α → α → Bool) (x : α) : List α → List α
  | [] => [x]
  | y :: ys => if le x y then x :: y :: ys else y :: insSorted le x ys

def sortBy {α : Type} (le : α → α → Bool) : List α → List α
  | [] => []
  | x :: xs => insSorted le x (sortBy le xs)

/-- Comparison used by `sorted(..., key=lambda x: x[1], reverse=True)`:
counts descending, ties keeping original order. -/
def countLe {α : Type} (x y : α × Nat) : Bool := decide (y.2 ≤ x.2)

/-- Python `sorted(pairs, key=lambda x: x[1], reverse=True)` (stable). -/
def sortCD {α : Type} (l : List (α × Nat)) : List (α × Nat) := sortBy countLe l

/-- Lexicographic comparison on pairs, as used by Python `list.sort()` on
2-tuples (ascending, stable). -/
def lexLe (x y : Int × Int) : Bool :=
  decide (x.1 < y.1 ∨ (x.1 = y.1 ∧ x.2 ≤ y.2))

def sortLex (l : List (Int × Int)) : List (Int × Int) := sortBy lexLe l

/-! ### `src/.defunct/extract_spikes.py`: peak selection and window merging -/

/-- Shallow embedding of `top_bins` from `src/.defunct/extract_spikes.py`:
`[m for m, _c in sorted(hist.items(), key=lambda x: x[1], reverse=True)[:k]]`.
The dict `hist` is modelled as an insertion-ordered association list. -/
def top_bins (hist : List (Int × Nat)) (k : Nat) : List Int :=
  ((sortCD hist).take k).map (fun p => p.1)

/-- Modelled from the spec: "Select the `top_k` buckets by count, descending;
ties broken by bucket index ascending (deterministic)" — the tie-break the
spec describes, for comparison with the source's `top_bins`. -/
def specCountBucketLe (x y : Int × Nat) : Bool :=
  decide (y.2 < x.2 ∨ (y.2 = x.2 ∧ x.1 ≤ y.1))

/-- Modelled from the spec: top-k selection with ties broken by bucket index
ascending. -/
def topBinsSpec (hist : List (Int × Nat)) (k : Nat) : List Int :=
  ((sortBy specCountBucketLe hist).take k).map (fun p => p.1)

/-- Claim C4 as stated: the source's `top_bins` selects the k highest-count
buckets with ties broken by bucket index ascending. -/
def claimC4 : Prop :=
  ∀ (hist : List (Int × Nat)) (k : Nat),
    (hist.map (fun p => p.1)).Nodup → top_bins hist k = topBinsSpec hist k

/-- Shallow embedding of the loop body of `expand_and_merge`: append the span
as a fresh window, or extend the end of the last window. -/
def merge_step (merged : List (Int × Int)) (se : Int × Int) : List (Int × Int) :=
  match merged.getLast? with
  | none => [se]
  | some me => if me.2 + 1 < se.1 then merged ++ [se]
               else merged.dropLast ++ [(me.1, max me.2 se.2)]

/-- Shallow embedding of `expand_and_merge` from
`src/.defunct/extract_spikes.py`: expand every peak to
`(p - window_min, p + window_min)`, sort, then fold the merge loop. -/
def expand_and_merge (peaks : List Int) (window_min : Int) : List (Int × Int) :=
  (sortLex (peaks.map (fun p => (p - window_min, p + window_min)))).foldl merge_step []

/-- Open-window rendering of the merge loop (the last, still-extendable
window is carried as the first argument); used to reason about
`expand_and_merge` and proved equal to the `foldl` above. -/
def mergeRec (cur : Int × Int) : List (Int × Int) → List (Int × Int)
  | [] => [cur]
  | se :: rest =>
    if cur.2 + 1 < se.1 then cur :: mergeRec se rest
    else mergeRec (cur.1, max cur.2 se.2) rest

/-- Containment of a span in a window (both inclusive bucket ranges). -/
abbrev spanIn (w sp : Int × Int) : Prop := w.1 ≤ sp.1 ∧ sp.2 ≤ w.2

/-! ### `candidate_pipeline.normalize_text` -/

/-- Shallow embedding of `normalize_text` from `src/candidate_pipeline.py`
(the external `fix_text(unidecode(s))` unicode repair is modelled as the
identity; it is the identity on the ASCII inputs considered here). -/
def normalize_text (s : String) : String :=
  let l := s.data
  let l := subScan urlMatch ' ' l
  let l := subScan handleMatch ' ' l
  let l := subScan hashtagMatch ' ' l
  let l := l.map dashToHyphen
  let l := l.map punctToSpace
  let s := String.mk (l.map Char.toLower)
  let s := pyReplace (pyReplace s "&" "and") " tv " " television "
  pyStrip (String.mk (subScan wsMatch ' ' s.data))

/-! ### Anchor rules (`ANCHORS["WIN_A"]`, `ANCHORS["WIN_B"]`) and `split3`

The two anchor regexes have the shape `(.+?)\s+(ALT)\s+(.+)` with `re.I`.
`re.search` semantics are rendered directly: the lazy first group scans
split positions left to right; at each position the `\s+` is a maximal
whitespace run (no alternative of `ALT` starts with whitespace, so no
shorter run can ever match); the alternatives of `ALT` are tried in
regex backtracking order; after the anchor, `\s+(.+)` takes the maximal
whitespace run that still leaves at least one character for the greedy
final group. -/

abbrev AnchorMatcher := List Char → Option Nat

def toLowerList (l : List Char) : List Char := l.map Char.toLower

/-- Case-insensitive literal prefix test (`pat` is given in lowercase). -/
def ciPrefix (pat : List Char) (l : List Char) : Bool :=
  toLowerList (l.take pat.length) == pat

/-- Matcher for one literal alternative (case-insensitive). -/
def matchLit (pat : String) : AnchorMatcher := fun l =>
  if ciPrefix pat.data l then some pat.data.length else none

/-- Matcher for an alternative of the shape `w1\s+w2` (case-insensitive);
the inner `\s+` is a maximal run (`w2` starts with a letter, so shorter
runs cannot match). -/
def matchWsWord (w1 w2 : String) : AnchorMatcher := fun l =>
  if ciPrefix w1.data l then
    let rest := l.drop w1.data.length
    let w := (rest.takeWhile isSpaceChar).length
    if 1 ≤ w ∧ ciPrefix w2.data (rest.drop w) then
      some (w1.data.length + w + w2.data.length)
    else none
  else none

/-- `WIN_A`: `wins?|receives?|gets|takes\s+home|is\s+awarded`, in regex
backtracking order (greedy `s?` first). -/
def winAVariants : List AnchorMatcher :=
  [matchLit "wins", matchLit "win", matchLit "receives", matchLit "receive",
   matchLit "gets", matchWsWord "takes" "home", matchWsWord "is" "awarded"]

/-- `WIN_B`: `goes\s+to|awarded\s+to`. -/
def winBVariants : List AnchorMatcher :=
  [matchWsWord "goes" "to", matchWsWord "awarded" "to"]

/-- Match `\s+(.+)` after an anchor of length `n` at `l`; returns the matched
anchor slice and the raw third group. -/
def afterAnchorSplit (l : List Char) (n : Nat) : Option (List Char × List Char) :=
  let suffix := l.drop n
  let w := (suffix.takeWhile isSpaceChar).length
  if 1 ≤ w ∧ 2 ≤ suffix.length then
    some (l.take n, suffix.drop (min w (suffix.length - 1)))
  else none

/-- Try the anchor alternatives in order at a fixed position, requiring the
rest of the pattern (`\s+(.+)`) to match as well. -/
def tryVariantsAt : List AnchorMatcher → List Char → Option (List Char × List Char)
  | [], _ => none
  | v :: vs, l =>
    match v l with
    | some n =>
      match afterAnchorSplit l n with
      | some res => some res
      | none => tryVariantsAt vs l
    | none => tryVariantsAt vs l

/-- Scan split positions left to right (the lazy `(.+?)`); `accRev` is the
reversed first group so far (nonempty at every attempt). -/
def splitScan (variants : List AnchorMatcher) :
    List Char → List Char → Option (List Char × List Char × List Char)
  | _, [] => none
  | accRev, c :: cs =>
    let w1 := (cs.takeWhile isSpaceChar).length
    if 1 ≤ w1 then
      match tryVariantsAt variants (cs.drop w1) with
      | some (anchor, r) => some ((c :: accRev).reverse, anchor, r)
      | none => splitScan variants (c :: accRev) cs
    else splitScan variants (c :: accRev) cs

/-- Shallow embedding of `split3` from `src/candidate_pipeline.py`: apply a
3-group anchor regex and return the stripped groups. -/
def split3 (variants : List AnchorMatcher) (text : String) :
    Option (String × String × String) :=
  match splitScan variants [] text.data with
  | some (l, a, r) =>
    some (pyStrip (String.mk l), pyStrip (String.mk a), pyStrip (String.mk r))
  | none => none

/-! ### Award-phrase extraction (`BEST_SPAN`, `TRIM_AT`,
`extract_award_from_side`) -/

/-- Character class `[a-z0-9&/,\-.\s]` of `BEST_SPAN` (with `re.I`). -/
def bestClassChar (c : Char) : Bool :=
  isAsciiLetter c || isAsciiDigit c || c == '&' || c == '/' || c == ',' ||
  c == '-' || c == '.' || isSpaceChar c

/-- Match `best\s+[a-z0-9&/,\-.\s]{3,120}` at the head of `l` (the `\b` is
checked by the caller): the `\s+` takes the longest run that still leaves
at least 3 class characters, the class run is then greedy up to 120. -/
def bestSpanAt (l : List Char) : Option (List Char) :=
  if ciPrefix "best".data l then
    let tail := l.drop 4
    let w0 := (tail.takeWhile isSpaceChar).length
    let t := (tail.takeWhile bestClassChar).length
    if 1 ≤ w0 ∧ 4 ≤ t then
      let w := min w0 (t - 3)
      some (l.take (4 + w + min (t - w) 120))
    else none
  else none

/-- `BEST_SPAN.search`: leftmost match, scanning with the word-boundary
condition (`best` starts with a word character, so `\b` holds exactly when
the previous character is absent or not a word character). -/
def bestSpanSearch : Option Char → List Char → Option (List Char)
  | _, [] => none
  | prev, c :: cs =>
    let boundary := match prev with
      | none => true
      | some p => !isWordChar p
    match if boundary then bestSpanAt (c :: cs) else none with
    | some cap => some cap
    | none => bestSpanSearch (some c) cs

/-- `TRIM_AT = [.!?;:|]`. -/
def trimAtChar (c : Char) : Bool :=
  c == '.' || c == '!' || c == '?' || c == ';' || c == ':' || c == '|'

/-- Characters of the Python `strip(" -—~·•\n\t ")` call. -/
def awardStripChars : List Char := [' ', '-', '—', '~', '·', '•', '\n', '\t']

/-- Pure part of `extract_award_from_side` (steps 1-3 of its docstring):
prefer a `Best …` span, trim at strong punctuation, strip edge separators,
require `best` to remain.  State recording happens in the caller. -/
def awardCandidate (side : String) : Option String :=
  if side = "" then none
  else
    let cand := match bestSpanSearch none side.data with
      | some cap => cap
      | none => side.data
    let cand := cand.takeWhile (fun c => !trimAtChar c)
    let cand := ((cand.dropWhile (fun c => awardStripChars.contains c)).reverse.dropWhile
      (fun c => awardStripChars.contains c)).reverse
    if cand.isEmpty then none
    else if !hasSubList "best".data (toLowerList cand) then none
    else some (String.mk cand)

/-- Pure part of the `candidate_pipeline_dirty.py` variant of
`extract_award_from_side`: identical except for a second plain `.strip()`
after the character-set strip. -/
def awardCandidateDirty (side : String) : Option String :=
  if side = "" then none
  else
    let cand := match bestSpanSearch none side.data with
      | some cap => cap
      | none => side.data
    let cand := cand.takeWhile (fun c => !trimAtChar c)
    let cand := ((cand.dropWhile (fun c => awardStripChars.contains c)).reverse.dropWhile
      (fun c => awardStripChars.contains c)).reverse
    let cand := ((cand.dropWhile isSpaceChar).reverse.dropWhile isSpaceChar).reverse
    if cand.isEmpty then none
    else if !hasSubList "best".data (toLowerList cand) then none
    else some (String.mk cand)

/-! ### Run-scoped award-frequency state (`AWARD_FREQ`, `AWARD_VARIANTS`)

Python `Counter`s and dicts preserve insertion order, and
`Counter.most_common` sorts stably by count descending, so ties are won
by the earliest-inserted key. -/

/-- `Counter[k] += 1`: increment in place, append new keys at the end. -/
def counterIncr {α : Type} [DecidableEq α] (c : List (α × Nat)) (k : α) :
    List (α × Nat) :=
  match c with
  | [] => [(k, 1)]
  | kv :: rest =>
    if kv.1 = k then (kv.1, kv.2 + 1) :: rest else kv :: counterIncr rest k

/-- `AWARD_VARIANTS.setdefault(norm, Counter())[cand] += 1` on an
insertion-ordered dict of counters. -/
def variantsIncr (v : List (String × List (String × Nat))) (norm cand : String) :
    List (String × List (String × Nat)) :=
  match v with
  | [] => [(norm, [(cand, 1)])]
  | p :: rest =>
    if p.1 = norm then (p.1, counterIncr p.2 cand) :: rest
    else p :: variantsIncr rest norm cand

/-- Dict lookup `AWARD_VARIANTS[norm]` (present whenever it was recorded). -/
def variantsGet (v : List (String × List (String × Nat))) (norm : String) :
    List (String × Nat) :=
  match v.find? (fun p => p.1 == norm) with
  | some p => p.2
  | none => []

/-- The two module-level accumulators of `candidate_pipeline.py`. -/
structure AwardState where
  freq : List (String × Nat)
  variants : List (String × List (String × Nat))
deriving DecidableEq

/-- Initial (empty) accumulator state. -/
def st0 : AwardState := ⟨[], []⟩

/-- Shallow embedding of `extract_award_from_side` from
`src/candidate_pipeline.py`; the mutation of the module-level
`AWARD_FREQ`/`AWARD_VARIANTS` is made explicit by threading `AwardState`.
On success the returned surface form is
`AWARD_VARIANTS[norm].most_common(1)[0][0]`. -/
def extract_award_from_side (st : AwardState) (side : String) :
    Option String × AwardState :=
  match awardCandidate side with
  | none => (none, st)
  | some cand =>
    let norm := normalize_text cand
    if norm.length < 8 then (none, st)
    else
      let st' : AwardState :=
        ⟨counterIncr st.freq norm, variantsIncr st.variants norm cand⟩
      match (sortCD (variantsGet st'.variants norm)).head? with
      | some kv => (some kv.1, st')
      | none => (none, st')

/-- The `candidate_pipeline_dirty.py` variant (same recording, dirty pure
part). -/
def extract_award_from_side_dirty (st : AwardState) (side : String) :
    Option String × AwardState :=
  match awardCandidateDirty side with
  | none => (none, st)
  | some cand =>
    let norm := normalize_text cand
    if norm.length < 8 then (none, st)
    else
      let st' : AwardState :=
        ⟨counterIncr st.freq norm, variantsIncr st.variants norm cand⟩
      match (sortCD (variantsGet st'.variants norm)).head? with
      | some kv => (some kv.1, st')
      | none => (none, st')

/-! ### NER capability and candidate generation -/

/-- Typed entity mention returned by the external NER capability (spaCy). -/
structure Ent where
  text : String
  label : String
deriving DecidableEq

/-- Shallow embedding of `filter_name`: all PERSON entity spans, in order,
with the spaCy pipeline abstracted as the oracle `ents`. -/
def filter_name (ents : String → List Ent) (s : String) : List String :=
  ((ents s).filter (fun e => e.label == "PERSON")).map Ent.text

/-- The `Candidate` dataclass. -/
structure Candidate where
  rule_id : String
  award_name : String
  anchor_text : String
  subject : String
deriving DecidableEq

/-- Shallow embedding of `generate_from_text` from
`src/candidate_pipeline.py` (the unused legacy parameters
`base`/`segment`/`max_left`/`max_right` are dropped): try `WIN_B`
("Award goes to Entity") first and return on full success; otherwise fall
through to `WIN_A` ("Entity wins Award"). -/
def generate_from_text (ents : String → List Ent) (st : AwardState)
    (text : String) : List Candidate × AwardState :=
  let tryWinA : AwardState → List Candidate × AwardState := fun stA =>
    match split3 winAVariants text with
    | some (l, anchor, r) =>
      match filter_name ents l with
      | subject :: _ =>
        match extract_award_from_side stA r with
        | (some award, st1) => ([⟨"WIN_A", award, anchor, subject⟩], st1)
        | (none, st1) => ([], st1)
      | [] => ([], stA)
    | none => ([], stA)
  match split3 winBVariants text with
  | some (l, anchor, r) =>
    match filter_name ents r with
    | subject :: _ =>
      match extract_award_from_side st l with
      | (some award, st1) => ([⟨"WIN_B", award, anchor, subject⟩], st1)
      | (none, st1) => tryWinA st1
    | [] => tryWinA st
  | none => tryWinA st

/-- The `WIN_B` rule in isolation: `some` exactly on full success (link
phrase found, a PERSON on the right, an award phrase on the left). -/
def winBFull (ents : String → List Ent) (st : AwardState) (text : String) :
    Option (Candidate × AwardState) :=
  match split3 winBVariants text with
  | some (l, anchor, r) =>
    match filter_name ents r with
    | subject :: _ =>
      match extract_award_from_side st l with
      | (some award, st1) => some (⟨"WIN_B", award, anchor, subject⟩, st1)
      | (none, _) => none
    | [] => none
  | none => none

/-- The `WIN_A` rule in isolation, as the extraction that remains once
`WIN_B` has not fired. -/
def winAOnly (ents : String → List Ent) (st : AwardState) (text : String) :
    List Candidate × AwardState :=
  match split3 winAVariants text with
  | some (l, anchor, r) =>
    match filter_name ents l with
    | subject :: _ =>
      match extract_award_from_side st r with
      | (some award, st1) => ([⟨"WIN_A", award, anchor, subject⟩], st1)
      | (none, st1) => ([], st1)
    | [] => ([], st)
  | none => ([], st)

/-- Shallow embedding of `generate_from_text` from
`src/candidate_pipeline_dirty.py`: on a `WIN_B` match with no PERSON on the
right it returns the empty candidate list at once (no fall-through), and a
missing award phrase degrades to `"unrecognizable award"` via
`filter_award_name` instead of failing the rule. -/
def generate_from_text_dirty (ents : String → List Ent) (st : AwardState)
    (text : String) : List Candidate × AwardState :=
  match split3 winBVariants text with
  | some (l, anchor, r) =>
    match filter_name ents r with
    | [] => ([], st)
    | subject :: _ =>
      match extract_award_from_side_dirty st l with
      | (some award, st1) => ([⟨"WIN_B", award, anchor, subject⟩], st1)
      | (none, st1) => ([⟨"WIN_B", "unrecognizable award", anchor, subject⟩], st1)
  | none =>
    match split3 winAVariants text with
    | some (l, anchor, r) =>
      match filter_name ents l with
      | [] => ([], st)
      | subject :: _ =>
        match extract_award_from_side_dirty st r with
        | (some award, st1) => ([⟨"WIN_A", award, anchor, subject⟩], st1)
        | (none, st1) => ([⟨"WIN_A", "unrecognizable award", anchor, subject⟩], st1)
    | none => ([], st)

/-- The `WIN_A` branch of the dirty generator in isolation. -/
def winAOnlyDirty (ents : String → List Ent) (st : AwardState) (text : String) :
    List Candidate × AwardState :=
  match split3 winAVariants text with
  | some (l, anchor, r) =>
    match filter_name ents l with
    | [] => ([], st)
    | subject :: _ =>
      match extract_award_from_side_dirty st r with
      | (some award, st1) => ([⟨"WIN_A", award, anchor, subject⟩], st1)
      | (none, st1) => ([⟨"WIN_A", "unrecognizable award", anchor, subject⟩], st1)
  | none => ([], st)

/-- Run the extractor over a batch of texts, accumulating the award state
(the module-level globals across a run). -/
def runBatch (ents : String → List Ent) (st : AwardState)
    (texts : List String) : AwardState :=
  texts.foldl (fun s t => (generate_from_text ents s t).2) st

/-- Well-formedness of the accumulator: every recorded variant normalizes to
its bucket key.  It holds for the empty state and is preserved by the
extractor. -/
def WFState (st : AwardState) : Prop :=
  ∀ p ∈ st.variants, ∀ vc ∈ p.2, normalize_text vc.1 = p.1

/-! ### `src/winners_from_candidates.py`: consensus voting

Floats are modelled as rationals (`winner_share` is reported exactly; the
`round(share, 4)` applied during JSON serialization is on-disk formatting,
which the spec places out of scope).  The optional
`award_variant_map.json` is the abstract lookup `vmap`. -/

/-- `LOW_CONF_SHARE = 0.55`. -/
def LOW_CONF_SHARE : ℚ := 55 / 100

/-- Quote characters deleted by `normalize_person`. -/
def quoteChars : List Char := ['\x22', '\x27', '“', '”', '‘', '’', '\x60']

/-- Bracket characters deleted by `normalize_person`. -/
def parenChars : List Char := ['(', ')', '\x7b', '\x7d', '[', ']']

/-- Small words kept lowercase by the title-casing helpers. -/
def smallWords : List String :=
  ["and", "or", "of", "the", "a", "an", "in", "for", "by", "to", "on", "at",
   "with", "series", "film"]

/-- Fuel-driven Python `s.split()`: split on whitespace runs, no empties. -/
def splitWsF : Nat → List Char → List (List Char)
  | 0, _ => []
  | _ + 1, [] => []
  | fuel + 1, c :: cs =>
    if isSpaceChar c then splitWsF fuel cs
    else
      let word := (c :: cs).takeWhile (fun d => !isSpaceChar d)
      word :: splitWsF fuel ((c :: cs).drop word.length)

def pySplit (s : String) : List String :=
  (splitWsF s.data.length s.data).map String.mk

/-- Python `w[:1].upper() + w[1:]`. -/
def capFirst (w : String) : String :=
  match w.data with
  | [] => ""
  | c :: cs => String.mk (Char.toUpper c :: cs)

/-- The title-casing loop shared by `normalize_person` and
`smart_title_award`: capitalize each word, but keep small words lowercase
except in first position. -/
def titleWords (ws : List String) : List String :=
  ws.enum.map (fun p =>
    let lw := pyLower p.2
    if 0 < p.1 && smallWords.contains lw then lw else capFirst p.2)

/-- Shallow embedding of `normalize_award_key`. -/
def normalize_award_key (s : String) : String :=
  let s := String.mk ((pyLower s).data.map dashToHyphen)
  let s := pyReplace (pyReplace s "&" "and") " tv " " television "
  pyStrip (String.mk (subScan wsMatch ' ' s.data))

/-- Shallow embedding of `normalize_person`. -/
def normalize_person (s : String) : String :=
  let l := s.data.filter (fun c => !quoteChars.contains c)
  let l := l.filter (fun c => !parenChars.contains c)
  let s := pyStrip (String.mk (subScan wsMatch ' ' l))
  String.intercalate " " (titleWords (pySplit s))

/-- Shallow embedding of `unify_dash_readable`. -/
def unify_dash_readable (s : String) : String :=
  let s := String.mk (s.data.map dashToHyphen)
  let s := String.mk (subScan wsMatch ' ' s.data)
  let s := pyReplace s " - " " – "
  let s := pyReplace s " -" " – "
  let s := pyReplace s "- " " – "
  let s := pyReplace s "-" " – "
  pyStrip s

/-- Shallow embedding of `smart_title_award`. -/
def smart_title_award (s : String) : String :=
  String.intercalate " " (titleWords (pySplit (unify_dash_readable s)))

/-- Shallow embedding of `canonicalize_award`; `vmap` abstracts the optional
variant→canonical dict loaded from disk. -/
def canonicalize_award (vmap : String → Option String) (name : String) :
    String :=
  if name = "" ∨ pyLower (pyStrip name) = "unrecognizable award" then ""
  else
    match vmap name with
    | some v => v
    | none =>
      match vmap (normalize_award_key name) with
      | some v => v
      | none => smart_title_award name

/-- One parsed element of `candidates.json` (the two fields `main` reads). -/
structure CandRecord where
  award_name : Option String
  subject : Option String

/-- The per-award result record assembled by `main` (exact rational share). -/
structure ElectionResult where
  award : String
  winner : String
  votes_for_winner : Nat
  total_votes : Nat
  winner_share : ℚ
  low_confidence : Bool
  runner_up : List (String × Nat)
deriving DecidableEq

/-- The per-award election step of `main` (`ctr.most_common` is a stable
count-descending sort): winner, share, low-confidence flag and
`ctr.most_common(5)[1:]` as runner-ups. -/
def electOne (award : String) (ctr : List (String × Nat)) (total : Nat) :
    ElectionResult :=
  let sorted := sortCD ctr
  let top := sorted.head?.getD ("", 0)
  let share : ℚ := if total = 0 then 0 else (top.2 : ℚ) / (total : ℚ)
  { award := unify_dash_readable award
    winner := top.1
    votes_for_winner := top.2
    total_votes := total
    winner_share := share
    low_confidence := decide (share < LOW_CONF_SHARE)
    runner_up := (sorted.take 5).drop 1 }

/-- Modelled from the spec: "report up to the top-5 runner-ups (excluding
the winner) sorted by vote count descending" — five entries past the
winner, for comparison with the source's `most_common(5)[1:]`. -/
def specRunnerUps (ctr : List (String × Nat)) : List (String × Nat) :=
  ((sortCD ctr).drop 1).take 5

/-- The stripped `award_name`/`subject` fields of a record
(`(c.get(...) or "").strip()`). -/
def recordFields (c : CandRecord) : String × String :=
  (pyStrip (c.award_name.getD ""), pyStrip (c.subject.getD ""))

/-- Does the record survive all per-record guards of the vote loop? -/
def usableB (vmap : String → Option String) (c : CandRecord) : Bool :=
  let f := recordFields c
  !(f.1 == "" || pyLower f.1 == "unrecognizable award") &&
  !(f.2 == "") && !(canonicalize_award vmap f.1 == "")

/-- One iteration of the vote loop: `(votes, total_per_award, kept)`. -/
def tallyStep (vmap : String → Option String)
    (acc : List (String × List (String × Nat)) × List (String × Nat) × Nat)
    (c : CandRecord) :
    List (String × List (String × Nat)) × List (String × Nat) × Nat :=
  let f := recordFields c
  if f.1 = "" ∨ pyLower f.1 = "unrecognizable award" then acc
  else if f.2 = "" then acc
  else
    let award := canonicalize_award vmap f.1
    if award = "" then acc
    else
      let person := normalize_person f.2
      (variantsIncr acc.1 award person, counterIncr acc.2.1 award, acc.2.2 + 1)

/-- `total_per_award[award]` (`Counter` missing keys count 0). -/
def countGet (totals : List (String × Nat)) (a : String) : Nat :=
  match totals.find? (fun p => p.1 == a) with
  | some p => p.2
  | none => 0

/-- Stable sort order of the final result list (`winners.sort(key=award)`). -/
def awardLe (r1 r2 : ElectionResult) : Bool := decide (r1.award ≤ r2.award)

/-- Shallow embedding of the `main` of `src/winners_from_candidates.py` on an
already-parsed, well-shaped candidate array: count votes per
(award, person) skipping unusable records, abort with a diagnostic when no
record was kept, else elect one winner per award and sort by award name. -/
def mainModel (vmap : String → Option String) (records : List CandRecord) :
    Except String (List ElectionResult) :=
  let acc := records.foldl (tallyStep vmap) ([], [], 0)
  if acc.2.2 = 0 then
    Except.error "No usable candidates found (all unrecognizable or empty)."
  else
    Except.ok (sortBy awardLe (acc.1.map (fun p =>
      electOne p.1 p.2 (countGet acc.2.1 p.1))))

/-! ### Concrete oracles and texts used by counterexamples and witnesses -/

def adeleOracle : String → List Ent := fun s =>
  if s = "Adele" then [⟨"Adele", "PERSON"⟩] else []

def angLeeOracle : String → List Ent := fun s =>
  if s = "Ang Lee" then [⟨"Ang Lee", "PERSON"⟩, ⟨"Life of Pi", "WORK"⟩] else []

def merylOracle : String → List Ent := fun s =>
  if s = "Meryl Streep" then [⟨"Meryl Streep", "PERSON"⟩] else []

def tMeryl : String := "Meryl Streep wins Best Actress Drama and it goes to nobody"

def tAdele1 : String := "Adele wins Best Foreign Film"

def tAdele2 : String := "Adele wins BEST FOREIGN FILM"

def tAngLee : String := "Ang Lee wins Best Motion Picture Drama"

def cAngLee : Candidate :=
  ⟨"WIN_A", "Best Motion Picture Drama", "wins", "Ang Lee"⟩

/-! ### The claims under test, as stated -/

/-- Claim C1, the fall-through conjunct, on the dirty generator: a rule whose
link phrase matches but whose designated entity side yields no entity
mention is treated as not having fired, and extraction falls through to the
next rule. -/
def claimC1dirtyFallThrough : Prop :=
  ∀ (ents : String → List Ent) (st : AwardState) (text : String)
    (l a r : String),
    split3 winBVariants text = some (l, a, r) →
    filter_name ents r = [] →
    generate_from_text_dirty ents st text = winAOnlyDirty ents st text

/-- Keywords of the person-oriented-category test described by the spec. -/
def personKeywords : List String :=
  ["actor", "actress", "director", "score", "screenplay"]

/-- Modelled from the spec: "PERSON-typed mentions for person-oriented
categories — detected via a keyword test such as
actor/actress/director/score/screenplay appearing in the category phrase —
otherwise WORK-typed mentions".  No such test exists in the source; this
definition only states claim C5. -/
def specPersonOriented (phrase : String) : Bool :=
  personKeywords.any (fun k => hasSub k (pyLower phrase))

/-- The side of the anchor designated to hold the entity, per rule. -/
def entitySide (text rid : String) : Option String :=
  if rid = "WIN_B" then (split3 winBVariants text).map (fun t => t.2.2)
  else (split3 winAVariants text).map (fun t => t.1)

/-- Claim C5 as stated: a produced candidate's subject is the first entity
mention of the kind matching the category orientation (PERSON for
person-oriented category phrases, WORK otherwise). -/
def claimC5 : Prop :=
  ∀ (ents : String → List Ent) (st : AwardState) (text : String)
    (c : Candidate), c ∈ (generate_from_text ents st text).1 →
    ∃ side, entitySide text c.rule_id = some side ∧
      ∃ m, ((ents side).filter (fun e =>
          e.label == (if specPersonOriented c.award_name then "PERSON" else "WORK"))).head?
          = some m ∧ c.subject = m.text

/-- Claim C7 as stated: re-running the extractor on the same text yields the
same candidates (same award phrase and subject), regardless of which other
texts were processed between the two calls. -/
def claimC7 : Prop :=
  ∀ (ents : String → List Ent) (pre mid : List String) (text : String),
    (generate_from_text ents (runBatch ents st0 pre) text).1 =
    (generate_from_text ents
      (runBatch ents (generate_from_text ents (runBatch ents st0 pre) text).2 mid)
      text).1

/-- Claim C8 as stated: the reported runner-ups are the top five entities
other than the winner, by descending vote count. -/
def claimC8 : Prop :=
  ∀ (award : String) (ctr : List (String × Nat)) (total : Nat),
    (electOne award ctr total).runner_up = specRunnerUps ctr

/-- Claim C9 as stated: on a well-shaped candidate array the voting stage
always completes, reporting however many election results it managed to
produce, possibly zero. -/
def claimC9 : Prop :=
  ∀ (vmap : String → Option String) (records : List CandRecord),
    ∃ rs, mainModel vmap records = Except.ok rs

/-- The absent optional variant map (`award_variant_map.json` not present). -/
def vmapNone : String → Option String := fun _ => none

/-- A one-record candidate file for witnesses. -/
def recsC3 : List CandRecord := [⟨some "Best Picture Drama", some "Argo"⟩]

/-- A six-entity tally with distinct keys, for runner-up witnesses. -/
def ctrC8 : List (String × Nat) :=
  [("a", 6), ("b", 5), ("c", 4), ("d", 3), ("e", 2), ("f", 1)]

/-- Agreement of two extractor runs up to the award surface form: same
number of candidates, same rule, subject and anchor, award phrases equal
after normalization, and a well-formed output state. -/
def StableOut (res res' : List Candidate × AwardState) : Prop :=
  res.1.length = res'.1.length ∧
  (∀ c c', c ∈ res.1 → c' ∈ res'.1 →
    c.rule_id = c'.rule_id ∧ c.subject = c'.subject ∧
    c.anchor_text = c'.anchor_text ∧
    normalize_text c.award_name = normalize_text c'.award_name) ∧
  WFState res.2

/-! ## Theorems -/

/-! ### Properties of the stable insertion sort -/

theorem insSorted_perm {α : Type} (le : α → α → Bool) (x : α) (l : List α) :
    (insSorted le x l).Perm (x :: l) := by
  induction l with
  | nil => exact List.Perm.refl _
  | cons y ys ih =>
    unfold insSorted
    cases hc : le x y
    · simpa [hc] using (ih.cons y).trans (List.Perm.swap x y ys)
    · simp [hc]

theorem sortBy_perm {α : Type} (le : α → α → Bool) (l : List α) :
    (sortBy le l).Perm l := by
  induction l with
  | nil => exact List.Perm.refl _
  | cons x xs ih =>
    exact (insSorted_perm le x (sortBy le xs)).trans (ih.cons x)

theorem chain'_insSorted {α : Type} (le : α → α → Bool)
    (htot : ∀ a b, le a b || le b a) (x : α) :
    ∀ {l : List α}, List.Chain' (fun a b => le a b) l →
      List.Chain' (fun a b => le a b) (insSorted le x l) := by
  intro l
  induction l with
  | nil => intro _; simp [insSorted]
  | cons y ys ih =>
    intro h
    unfold insSorted
    cases hc : le x y
    · simp only [Bool.false_eq_true, if_false]
      have hyx : le y x = true := by
        have := htot x y
        simpa [hc] using this
      rw [List.chain'_cons']
      refine ⟨?_, ih h.tail⟩
      intro z hz
      cases ys with
      | nil => simp [insSorted] at hz; subst hz; exact hyx
      | cons w ws =>
        rw [List.chain'_cons] at h
        unfold insSorted at hz
        cases hcw : le x w <;> simp [hcw] at hz <;> subst hz
        · exact h.1
        · exact hyx
    · simp only [if_true]
      rw [List.chain'_cons]
      exact ⟨hc, h⟩

theorem sortBy_chain' {α : Type} (le : α → α → Bool)
    (htot : ∀ a b, le a b || le b a) (l : List α) :
    List.Chain' (fun a b => le a b) (sortBy le l) := by
  induction l with
  | nil => simp [sortBy]
  | cons x xs ih => exact chain'_insSorted le htot x ih

theorem filter_insSorted_neg {α : Type} (le : α → α → Bool) (p : α → Bool)
    (x : α) (hx : p x = false) :
    ∀ l : List α, (insSorted le x l).filter p = l.filter p := by
  intro l
  induction l with
  | nil => simp [insSorted, hx]
  | cons y ys ih =>
    unfold insSorted
    cases hc : le x y
    · simp only [Bool.false_eq_true, if_false, List.filter_cons]
      cases hy : p y <;> simp [hy, ih]
    · simp [List.filter_cons, hx]

theorem filter_insSorted_pos {α : Type} (le : α → α → Bool) (p : α → Bool)
    (x : α) (hx : p x = true) :
    ∀ l : List α, (∀ y ∈ l, le x y = false → p y = false) →
      (insSorted le x l).filter p = x :: l.filter p := by
  intro l
  induction l with
  | nil => simp [insSorted, hx]
  | cons y ys ih =>
    intro h
    unfold insSorted
    cases hc : le x y
    · have hy : p y = false := h y (by simp) hc
      simp only [Bool.false_eq_true, if_false, List.filter_cons, hy]
      simpa [hy] using ih (fun z hz => h z (by simp [hz]))
    · simp [List.filter_cons, hx]

theorem sortBy_filter {α : Type} (le : α → α → Bool) (p : α → Bool)
    (hstep : ∀ x y, p x = true → le x y = false → p y = false) :
    ∀ l : List α, (sortBy le l).filter p = l.filter p := by
  intro l
  induction l with
  | nil => rfl
  | cons x xs ih =>
    show (insSorted le x (sortBy le xs)).filter p = (x :: xs).filter p
    cases hx : p x
    · rw [filter_insSorted_neg le p x hx, ih, List.filter_cons, hx]
      simp
    · rw [filter_insSorted_pos le p x hx _ (fun y _ hle => hstep x y hx hle),
        ih, List.filter_cons, hx]
      simp

theorem countLe_total {α : Type} : ∀ a b : α × Nat, countLe a b || countLe b a := by
  intro a b
  simp only [countLe, Bool.or_eq_true, decide_eq_true_eq]
  omega

theorem sortCD_chain' {α : Type} (l : List (α × Nat)) :
    List.Chain' (fun a b => countLe a b) (sortCD l) :=
  sortBy_chain' countLe countLe_total l

theorem sortCD_pairwise {α : Type} (l : List (α × Nat)) :
    List.Pairwise (fun a b : α × Nat => b.2 ≤ a.2) (sortCD l) := by
  haveI : IsTrans (α × Nat) (fun a b : α × Nat => b.2 ≤ a.2) :=
    ⟨fun _ _ _ h1 h2 => le_trans h2 h1⟩
  refine List.chain'_iff_pairwise.mp ?_
  have h := sortCD_chain' l
  refine h.imp ?_
  intro a b hab
  simpa [countLe] using hab

/-! ### C4: peak selection -/

/-- C4, counterexample: `top_bins` does not break count ties by bucket index
ascending.  On the histogram `[(5, 2), (3, 2)]` (bucket 5 first in dict
insertion order) with `k = 2` the source returns `[5, 3]`, while the claimed
tie-break gives `[3, 5]`. -/
theorem c4_tiebreak_counterexample : ¬ claimC4 := fun h =>
  absurd (h [(5, 2), (3, 2)] 2 (by decide)) (by decide)

/-- C4, amended: `top_bins` returns the `min k |hist|` buckets of highest
count in non-increasing count order; every unselected bucket's count is at
most every selected one's; ties between equal counts keep the histogram's
dict insertion order (first appearance), not bucket-index order; if `k`
exceeds the number of buckets all buckets are returned; the empty histogram
yields the empty selection. -/
theorem c4_top_bins_amended (hist : List (Int × Nat)) (k : Nat) :
    (top_bins hist k).length = min k hist.length ∧
    List.Pairwise (fun a b : Int × Nat => b.2 ≤ a.2) ((sortCD hist).take k) ∧
    (∀ q ∈ hist, q.1 ∉ top_bins hist k →
      ∀ p ∈ (sortCD hist).take k, q.2 ≤ p.2) ∧
    (∀ n : Nat, ∃ t, ((sortCD hist).take k).filter (fun x => x.2 = n) ++ t =
      hist.filter (fun x => x.2 = n)) ∧
    (hist.length ≤ k → (top_bins hist k).Perm (hist.map (fun p => p.1))) ∧
    (hist = [] → top_bins hist k = []) := by
  refine ⟨?_, ?_, ?_, ?_, ?_, ?_⟩
  · have hlen : (sortCD hist).length = hist.length :=
      (sortBy_perm countLe hist).length_eq
    simp [top_bins, List.length_take, hlen]
  · exact (sortCD_pairwise hist).sublist (List.take_sublist k _)
  · intro q hq hnot p hp
    have hqs : q ∈ sortCD hist := ((sortBy_perm countLe hist).mem_iff).mpr hq
    have hqd : q ∈ (sortCD hist).drop k := by
      have hsplit := List.take_append_drop k (sortCD hist)
      rw [← hsplit] at hqs
      rcases List.mem_append.mp hqs with hqt | hqd
      · exact absurd (List.mem_map_of_mem (fun p => p.1) hqt) hnot
      · exact hqd
    have hpw := sortCD_pairwise hist
    rw [← List.take_append_drop k (sortCD hist), List.pairwise_append] at hpw
    exact hpw.2.2 p hp q hqd
  · intro n
    refine ⟨((sortCD hist).drop k).filter (fun x => x.2 = n), ?_⟩
    rw [← List.filter_append, List.take_append_drop]
    exact sortBy_filter countLe _ (by
      intro x y hx hle
      simp only [countLe, decide_eq_true_eq, decide_eq_false_iff_not,
        decide_eq_true_iff] at *
      omega) hist
  · intro hk
    have hlen : (sortCD hist).length ≤ k := by
      rw [show (sortCD hist).length = hist.length from
        (sortBy_perm countLe hist).length_eq]
      exact hk
    rw [top_bins, List.take_of_length_le hlen]
    exact (sortBy_perm countLe hist).map (fun p => p.1)
  · intro h; subst h; simp [top_bins, sortCD, sortBy]

/-- C4 witness: the amended theorem's k-highest clause instantiated on a
concrete histogram, hypotheses discharged by computation. -/
theorem c4_top_bins_amended_witness :
    ((9, 1) : Int × Nat) ∈ ([(5, 2), (3, 2), (9, 1)] : List (Int × Nat)) ∧
    ¬ (9 : Int) ∈ top_bins [(5, 2), (3, 2), (9, 1)] 2 ∧
    ((5, 2) : Int × Nat) ∈ (sortCD [(5, 2), (3, 2), (9, 1)]).take 2 ∧
    ((9, 1) : Int × Nat).2 ≤ ((5, 2) : Int × Nat).2 :=
  ⟨by decide, by decide, by decide,
   (c4_top_bins_amended [(5, 2), (3, 2), (9, 1)] 2).2.2.1 (9, 1) (by decide)
     (by decide) (5, 2) (by decide)⟩

/-! ### C2: expand-and-merge invariants -/

/-- Disjointness with a gap: the next window starts at least two past the
previous end. -/
abbrev gapRel (a b : Int × Int) : Prop := a.2 + 1 < b.1

/-- Both coordinates non-decreasing (how the sorted uniform-radius spans
relate). -/
abbrev monoRel (a b : Int × Int) : Prop := a.1 ≤ b.1 ∧ a.2 ≤ b.2

theorem merge_step_concat (acc : List (Int × Int)) (cur se : Int × Int) :
    merge_step (acc ++ [cur]) se =
      if cur.2 + 1 < se.1 then (acc ++ [cur]) ++ [se]
      else acc ++ [(cur.1, max cur.2 se.2)] := by
  have h1 : (acc ++ [cur]).getLast? = some cur := by simp
  have h2 : (acc ++ [cur]).dropLast = acc := by simp
  rw [merge_step, h1, h2]

theorem foldl_merge_step_eq (ss : List (Int × Int)) :
    ∀ (acc : List (Int × Int)) (cur : Int × Int),
      ss.foldl merge_step (acc ++ [cur]) = acc ++ mergeRec cur ss := by
  induction ss with
  | nil => intro acc cur; rfl
  | cons se rest ih =>
    intro acc cur
    show rest.foldl merge_step (merge_step (acc ++ [cur]) se) = _
    rw [merge_step_concat]
    by_cases hgap : cur.2 + 1 < se.1
    · rw [if_pos hgap, ih (acc ++ [cur]) se, List.append_assoc, mergeRec,
        if_pos hgap]
      rfl
    · rw [if_neg hgap, ih acc (cur.1, max cur.2 se.2), mergeRec, if_neg hgap]

theorem expand_and_merge_eq (peaks : List Int) (w : Int) :
    expand_and_merge peaks w =
      match sortLex (peaks.map (fun p => (p - w, p + w))) with
      | [] => []
      | sp :: rest => mergeRec sp rest := by
  rw [expand_and_merge]
  cases hss : sortLex (peaks.map (fun p => (p - w, p + w))) with
  | nil => rfl
  | cons sp rest =>
    show rest.foldl merge_step (merge_step [] sp) = mergeRec sp rest
    rw [show merge_step [] sp = [] ++ [sp] from rfl, foldl_merge_step_eq]
    rfl

theorem mergeRec_head (ss : List (Int × Int)) :
    ∀ cur : Int × Int, ∃ e tl, mergeRec cur ss = (cur.1, e) :: tl ∧ cur.2 ≤ e := by
  induction ss with
  | nil => intro cur; exact ⟨cur.2, [], rfl, le_refl _⟩
  | cons se rest ih =>
    intro cur
    rw [mergeRec]
    by_cases hgap : cur.2 + 1 < se.1
    · exact ⟨cur.2, mergeRec se rest, by rw [if_pos hgap], le_refl _⟩
    · obtain ⟨e, tl, heq, hle⟩ := ih (cur.1, max cur.2 se.2)
      exact ⟨e, tl, by rw [if_neg hgap]; exact heq,
        le_trans (le_max_left _ _) hle⟩

theorem mergeRec_chain'_gap (ss : List (Int × Int)) :
    ∀ cur : Int × Int, List.Chain' gapRel (mergeRec cur ss) := by
  induction ss with
  | nil => intro cur; simp [mergeRec]
  | cons se rest ih =>
    intro cur
    rw [mergeRec]
    by_cases hgap : cur.2 + 1 < se.1
    · rw [if_pos hgap]
      obtain ⟨e, tl, heq, -⟩ := mergeRec_head rest se
      have h2 := ih se
      rw [heq] at h2 ⊢
      exact List.Chain'.cons hgap h2
    · rw [if_neg hgap]; exact ih _

theorem mergeRec_start_le (ss : List (Int × Int)) :
    ∀ cur : Int × Int, List.Chain' monoRel (cur :: ss) →
      ∀ win ∈ mergeRec cur ss, cur.1 ≤ win.1 := by
  induction ss with
  | nil =>
    intro cur _ win hwin
    rw [mergeRec] at hwin
    simp at hwin
    subst hwin
    exact le_refl _
  | cons se rest ih =>
    intro cur hchain win hwin
    have hcs : monoRel cur se := (List.chain'_cons.mp hchain).1
    rw [mergeRec] at hwin
    by_cases hgap : cur.2 + 1 < se.1
    · rw [if_pos hgap] at hwin
      rcases List.mem_cons.mp hwin with h | h
      · subst h; exact le_refl _
      · exact le_trans hcs.1 (ih se (List.chain'_cons.mp hchain).2 win h)
    · rw [if_neg hgap] at hwin
      have hchain' : List.Chain' monoRel ((cur.1, max cur.2 se.2) :: rest) := by
        cases rest with
        | nil => simp
        | cons r1 rs =>
          have h1 : monoRel se r1 :=
            (List.chain'_cons.mp (List.chain'_cons.mp hchain).2).1
          rw [List.chain'_cons]
          refine ⟨⟨le_trans hcs.1 h1.1, ?_⟩,
            (List.chain'_cons.mp (List.chain'_cons.mp hchain).2).2⟩
          have : max cur.2 se.2 = se.2 := max_eq_right hcs.2
          rw [this]
          exact h1.2
      exact ih _ hchain' win hwin

theorem chain'_monoRel_step (cur se : Int × Int) (rest : List (Int × Int))
    (hchain : List.Chain' monoRel (cur :: se :: rest)) :
    List.Chain' monoRel ((cur.1, max cur.2 se.2) :: rest) := by
  have hcs : monoRel cur se := (List.chain'_cons.mp hchain).1
  cases rest with
  | nil => simp
  | cons r1 rs =>
    have h1 : monoRel se r1 :=
      (List.chain'_cons.mp (List.chain'_cons.mp hchain).2).1
    rw [List.chain'_cons]
    refine ⟨⟨le_trans hcs.1 h1.1, ?_⟩,
      (List.chain'_cons.mp (List.chain'_cons.mp hchain).2).2⟩
    rw [max_eq_right hcs.2]
    exact h1.2

theorem mergeRec_nonempty (ss : List (Int × Int)) :
    ∀ cur : Int × Int, cur.1 ≤ cur.2 → (∀ sp ∈ ss, sp.1 ≤ sp.2) →
      ∀ win ∈ mergeRec cur ss, win.1 ≤ win.2 := by
  induction ss with
  | nil =>
    intro cur hcur _ win hwin
    rw [mergeRec] at hwin
    simp at hwin
    subst hwin
    exact hcur
  | cons se rest ih =>
    intro cur hcur hss win hwin
    rw [mergeRec] at hwin
    by_cases hgap : cur.2 + 1 < se.1
    · rw [if_pos hgap] at hwin
      rcases List.mem_cons.mp hwin with h | h
      · subst h; exact hcur
      · exact ih se (hss se (by simp)) (fun sp hsp => hss sp (by simp [hsp])) win h
    · rw [if_neg hgap] at hwin
      exact ih (cur.1, max cur.2 se.2)
        (show cur.1 ≤ max cur.2 se.2 from le_trans hcur (le_max_left _ _))
        (fun sp hsp => hss sp (by simp [hsp])) win hwin

theorem mergeRec_covers (ss : List (Int × Int)) :
    ∀ cur : Int × Int, List.Chain' monoRel (cur :: ss) →
      ∀ sp ∈ cur :: ss, ∃ win ∈ mergeRec cur ss, spanIn win sp := by
  induction ss with
  | nil =>
    intro cur _ sp hsp
    simp at hsp
    subst hsp
    exact ⟨sp, by simp [mergeRec], le_refl _, le_refl _⟩
  | cons se rest ih =>
    intro cur hchain sp hsp
    have hcs : monoRel cur se := (List.chain'_cons.mp hchain).1
    rw [mergeRec]
    by_cases hgap : cur.2 + 1 < se.1
    · rw [if_pos hgap]
      rcases List.mem_cons.mp hsp with h | h
      · subst h
        exact ⟨sp, by simp, le_refl _, le_refl _⟩
      · obtain ⟨win, hwin, hin⟩ :=
          ih se (List.chain'_cons.mp hchain).2 sp h
        exact ⟨win, by simp [hwin], hin⟩
    · rw [if_neg hgap]
      have hchain' := chain'_monoRel_step cur se rest hchain
      obtain ⟨e, tl, heq, hle⟩ := mergeRec_head rest (cur.1, max cur.2 se.2)
      rcases List.mem_cons.mp hsp with h | h
      · subst h
        refine ⟨(sp.1, e), by rw [heq]; simp, le_refl _, ?_⟩
        exact le_trans (le_trans (le_max_left _ _) hle) (le_refl _)
      · rcases List.mem_cons.mp h with h2 | h2
        · subst h2
          refine ⟨((cur.1 : Int), e), by rw [heq]; simp, hcs.1, ?_⟩
          exact le_trans (le_max_right cur.2 sp.2) hle
        · obtain ⟨win, hwin, hin⟩ := ih _ hchain' sp (by simp [h2])
          exact ⟨win, hwin, hin⟩

theorem gap_all (l : List (Int × Int)) :
    ∀ a : Int × Int, (∀ w ∈ l, w.1 ≤ w.2) → List.Chain' gapRel (a :: l) →
      ∀ b ∈ l, gapRel a b := by
  induction l with
  | nil => intro a _ _ b hb; simp at hb
  | cons c cs ih =>
    intro a hne hchain b hb
    have hac : gapRel a c := (List.chain'_cons.mp hchain).1
    rcases List.mem_cons.mp hb with h | h
    · subst h; exact hac
    · have hcb : gapRel c b :=
        ih c (fun w hw => hne w (by simp [hw]))
          (List.chain'_cons.mp hchain).2 b h
      have hc : c.1 ≤ c.2 := hne c (by simp)
      show a.2 + 1 < b.1
      omega

theorem pairwise_gap (l : List (Int × Int)) (hne : ∀ w ∈ l, w.1 ≤ w.2)
    (hchain : List.Chain' gapRel l) : List.Pairwise gapRel l := by
  induction l with
  | nil => exact List.Pairwise.nil
  | cons a t ih =>
    refine List.Pairwise.cons ?_
      (ih (fun w hw => hne w (by simp [hw])) hchain.tail)
    exact gap_all t a (fun w hw => hne w (by simp [hw])) hchain

theorem pairwise_mem_or {α : Type} {R : α → α → Prop} :
    ∀ {l : List α}, List.Pairwise R l → ∀ a ∈ l, ∀ b ∈ l,
      a = b ∨ R a b ∨ R b a := by
  intro l
  induction l with
  | nil => intro _ a ha; simp at ha
  | cons c cs ih =>
    intro hp a ha b hb
    rcases List.mem_cons.mp ha with h1 | h1 <;>
      rcases List.mem_cons.mp hb with h2 | h2
    · exact Or.inl (h1.trans h2.symm)
    · subst h1; exact Or.inr (Or.inl ((List.pairwise_cons.mp hp).1 b h2))
    · subst h2; exact Or.inr (Or.inr ((List.pairwise_cons.mp hp).1 a h1))
    · exact ih (List.pairwise_cons.mp hp).2 a h1 b h2

theorem unique_containing (out : List (Int × Int))
    (hpw : List.Pairwise gapRel out) (sp : Int × Int) (hsp : sp.1 ≤ sp.2) :
    ∀ w ∈ out, ∀ w' ∈ out, spanIn w sp → spanIn w' sp → w = w' := by
  intro w hw w' hw' hin hin'
  rcases pairwise_mem_or hpw w hw w' hw' with h | h | h
  · exact h
  · exfalso
    have : w.2 + 1 < w'.1 := h
    have h1 : w'.1 ≤ sp.1 := hin'.1
    have h2 : sp.2 ≤ w.2 := hin.2
    omega
  · exfalso
    have : w'.2 + 1 < w.1 := h
    have h1 : w.1 ≤ sp.1 := hin.1
    have h2 : sp.2 ≤ w'.2 := hin'.2
    omega

theorem chain'_imp_mem {α : Type} {P Q : α → α → Prop} :
    ∀ {l : List α}, (∀ a ∈ l, ∀ b ∈ l, P a b → Q a b) →
      List.Chain' P l → List.Chain' Q l := by
  intro l
  induction l with
  | nil => intro _ _; exact List.chain'_nil
  | cons a t ih =>
    intro himp hchain
    cases t with
    | nil => simp
    | cons b t' =>
      rw [List.chain'_cons] at hchain ⊢
      exact ⟨himp a (by simp) b (by simp) hchain.1,
        ih (fun x hx y hy => himp x (by simp [hx]) y (by simp [hy])) hchain.2⟩

theorem chain'_monoRel_all (t : List (Int × Int)) :
    ∀ a : Int × Int, List.Chain' monoRel (a :: t) →
      ∀ b ∈ t, a.1 ≤ b.1 ∧ a.2 ≤ b.2 := by
  induction t with
  | nil => intro a _ b hb; simp at hb
  | cons c cs ih =>
    intro a hchain b hb
    have hac : monoRel a c := (List.chain'_cons.mp hchain).1
    rcases List.mem_cons.mp hb with h | h
    · subst h; exact hac
    · have := ih c (List.chain'_cons.mp hchain).2 b h
      exact ⟨le_trans hac.1 this.1, le_trans hac.2 this.2⟩

theorem mergeRec_same_window (ss : List (Int × Int)) :
    ∀ cur : Int × Int, List.Chain' monoRel (cur :: ss) →
      cur.1 ≤ cur.2 → (∀ sp ∈ ss, sp.1 ≤ sp.2) →
      List.Chain' (fun a b =>
        (∃ w ∈ mergeRec cur ss, spanIn w a ∧ spanIn w b) ↔ b.1 ≤ a.2 + 1)
        (cur :: ss) := by
  induction ss with
  | nil => intro cur _ _ _; simp
  | cons se rest ih =>
    intro cur hchain hcur hne
    have hcs : monoRel cur se := (List.chain'_cons.mp hchain).1
    have hse : se.1 ≤ se.2 := hne se (by simp)
    by_cases hgap : cur.2 + 1 < se.1
    · have hout : mergeRec cur (se :: rest) = cur :: mergeRec se rest := by
        rw [mergeRec, if_pos hgap]
      rw [hout, List.chain'_cons]
      constructor
      · constructor
        · rintro ⟨w, hw, hwc, hws⟩
          exfalso
          rcases List.mem_cons.mp hw with h | h
          · subst h
            have h2 : se.2 ≤ w.2 := hws.2
            omega
          · have h1 : se.1 ≤ w.1 :=
              mergeRec_start_le rest se (List.chain'_cons.mp hchain).2 w h
            have h2 : w.1 ≤ cur.1 := hwc.1
            omega
        · intro hle; exfalso; omega
      · have hih := ih se (List.chain'_cons.mp hchain).2 hse
          (fun sp hsp => hne sp (by simp [hsp]))
        have hmono := chain'_monoRel_all rest se (List.chain'_cons.mp hchain).2
        refine chain'_imp_mem ?_ hih
        intro a ha b hb hP
        constructor
        · rintro ⟨w, hw, hwa, hwb⟩
          rcases List.mem_cons.mp hw with h | h
          · subst h
            exfalso
            have h2 : a.2 ≤ w.2 := hwa.2
            have h3 : se.2 ≤ a.2 := by
              rcases List.mem_cons.mp ha with h4 | h4
              · subst h4; exact le_refl _
              · exact (hmono a h4).2
            omega
          · exact hP.mp ⟨w, h, hwa, hwb⟩
        · intro hle
          obtain ⟨w, hw, hwa, hwb⟩ := hP.mpr hle
          exact ⟨w, by simp [hw], hwa, hwb⟩
    · have hout : mergeRec cur (se :: rest) =
          mergeRec (cur.1, max cur.2 se.2) rest := by
        rw [mergeRec, if_neg hgap]
      have hchain' := chain'_monoRel_step cur se rest hchain
      have hcur' : cur.1 ≤ max cur.2 se.2 := le_trans hcur (le_max_left _ _)
      have hne' : ∀ sp ∈ rest, sp.1 ≤ sp.2 := fun sp hsp => hne sp (by simp [hsp])
      have hih := ih (cur.1, max cur.2 se.2) hchain' hcur' hne'
      have hmax : max cur.2 se.2 = se.2 := max_eq_right hcs.2
      obtain ⟨e, tl, heq, hle⟩ := mergeRec_head rest (cur.1, max cur.2 se.2)
      have hpw : List.Pairwise gapRel (mergeRec (cur.1, max cur.2 se.2) rest) :=
        pairwise_gap _
          (mergeRec_nonempty rest (cur.1, max cur.2 se.2) hcur' hne')
          (mergeRec_chain'_gap rest (cur.1, max cur.2 se.2))
      rw [hout, List.chain'_cons]
      constructor
      · constructor
        · intro _
          show se.1 ≤ cur.2 + 1
          omega
        · intro _
          refine ⟨(cur.1, e), by rw [heq]; simp, ⟨le_refl _, ?_⟩, ⟨hcs.1, ?_⟩⟩
          · exact le_trans (le_max_left _ _) hle
          · exact le_trans (le_max_right _ _) hle
      · cases rest with
        | nil => simp
        | cons r1 rs =>
          rw [List.chain'_cons] at hih ⊢
          constructor
          · have hPc := hih.1
            constructor
            · rintro ⟨w, hw, hwse, hwr⟩
              have hwcur : spanIn w (cur.1, max cur.2 se.2) := by
                rw [heq] at hw hpw
                rcases List.mem_cons.mp hw with h | h
                · subst h
                  exact ⟨le_refl _, hle⟩
                · exfalso
                  have hg : gapRel ((cur.1 : Int), e) w :=
                    (List.pairwise_cons.mp hpw).1 w h
                  have h1 : w.1 ≤ se.1 := hwse.1
                  have h2 : se.2 ≤ max cur.2 se.2 := le_max_right _ _
                  have h3 : gapRel ((cur.1 : Int), e) w := hg
                  show False
                  have h4 : e + 1 < w.1 := h3
                  omega
              have := hPc.mp ⟨w, hw, hwcur, hwr⟩
              show r1.1 ≤ se.2 + 1
              rw [hmax] at this
              exact this
            · intro hler
              obtain ⟨w, hw, hwc', hwr⟩ := hPc.mpr (by
                show r1.1 ≤ max cur.2 se.2 + 1
                rw [hmax]
                exact hler)
              refine ⟨w, hw, ⟨le_trans hwc'.1 hcs.1, ?_⟩, hwr⟩
              exact le_trans (le_max_right cur.2 se.2) hwc'.2
          · exact hih.2

theorem lexLe_total : ∀ a b : Int × Int, lexLe a b || lexLe b a := by
  intro a b
  simp only [lexLe, Bool.or_eq_true, decide_eq_true_eq]
  omega

theorem sortLex_width (peaks : List Int) (w : Int) :
    ∀ sp ∈ sortLex (peaks.map (fun p => (p - w, p + w))), sp.2 = sp.1 + 2 * w := by
  intro sp hsp
  have : sp ∈ peaks.map (fun p => (p - w, p + w)) :=
    ((sortBy_perm lexLe _).mem_iff).mp hsp
  obtain ⟨p, -, hp⟩ := List.mem_map.mp this
  subst hp
  show p + w = p - w + 2 * w
  ring

theorem sortLex_mono (peaks : List Int) (w : Int) :
    List.Chain' monoRel (sortLex (peaks.map (fun p => (p - w, p + w)))) := by
  have hchain := sortBy_chain' lexLe lexLe_total (peaks.map (fun p => (p - w, p + w)))
  refine chain'_imp_mem ?_ hchain
  intro a ha b hb hab
  have hwa := sortLex_width peaks w a ha
  have hwb := sortLex_width peaks w b hb
  simp only [lexLe, decide_eq_true_eq] at hab
  constructor <;> omega

/-- C2: for every peak list and every non-negative expand radius, the merged
window list is pairwise separated by a gap (hence disjoint and sorted by
start bucket, windows being nonempty); every expansion
`[peak - radius, peak + radius]` lies inside exactly one output window; and
two consecutive sorted spans land in a common output window exactly when the
next span's start is at most the previous span's end plus one. -/
theorem c2_expand_and_merge_spec (peaks : List Int) (w : Int) (hw : 0 ≤ w) :
    List.Pairwise gapRel (expand_and_merge peaks w) ∧
    List.Pairwise (fun a b : Int × Int => a.1 < b.1) (expand_and_merge peaks w) ∧
    (∀ win ∈ expand_and_merge peaks w, win.1 ≤ win.2) ∧
    (∀ p ∈ peaks, ∃ win ∈ expand_and_merge peaks w,
      spanIn win (p - w, p + w) ∧
      ∀ win' ∈ expand_and_merge peaks w, spanIn win' (p - w, p + w) → win' = win) ∧
    List.Chain' (fun a b =>
      (∃ win ∈ expand_and_merge peaks w, spanIn win a ∧ spanIn win b) ↔
        b.1 ≤ a.2 + 1)
      (sortLex (peaks.map (fun p => (p - w, p + w)))) := by
  have hmono := sortLex_mono peaks w
  have hwidth := sortLex_width peaks w
  have hEq := expand_and_merge_eq peaks w
  cases hss : sortLex (peaks.map (fun p => (p - w, p + w))) with
  | nil =>
    have hout : expand_and_merge peaks w = [] := by rw [hEq, hss]
    have hpeaks : peaks = [] := by
      have hlen := (sortBy_perm lexLe (peaks.map (fun p => (p - w, p + w)))).length_eq
      rw [show sortBy lexLe (peaks.map (fun p => (p - w, p + w))) =
        sortLex (peaks.map (fun p => (p - w, p + w))) from rfl, hss] at hlen
      simp at hlen
      exact List.length_eq_zero.mp hlen.symm
    subst hpeaks
    rw [hout]
    simp [hss]
  | cons sp rest =>
    rw [hss] at hmono
    have hne : ∀ x ∈ sp :: rest, x.1 ≤ x.2 := by
      intro x hx
      have := hwidth x (by rw [hss]; exact hx)
      omega
    have hout : expand_and_merge peaks w = mergeRec sp rest := by rw [hEq, hss]
    have hwin_ne : ∀ win ∈ mergeRec sp rest, win.1 ≤ win.2 :=
      mergeRec_nonempty rest sp (hne sp (by simp))
        (fun x hx => hne x (by simp [hx]))
    have hpw : List.Pairwise gapRel (mergeRec sp rest) :=
      pairwise_gap _ hwin_ne (mergeRec_chain'_gap rest sp)
    rw [hout]
    refine ⟨hpw, ?_, hwin_ne, ?_, ?_⟩
    · refine hpw.imp_of_mem ?_
      intro a b ha _ hab
      have h1 : a.1 ≤ a.2 := hwin_ne a ha
      show a.1 < b.1
      have h2 : a.2 + 1 < b.1 := hab
      omega
    · intro p hp
      have hmem : ((p - w, p + w) : Int × Int) ∈ sp :: rest := by
        rw [← hss]
        exact ((sortBy_perm lexLe _).mem_iff).mpr
          (List.mem_map_of_mem (fun p => (p - w, p + w)) hp)
      obtain ⟨win, hwin, hin⟩ := mergeRec_covers rest sp hmono _ hmem
      refine ⟨win, hwin, hin, ?_⟩
      intro win' hwin' hin'
      exact unique_containing _ hpw (p - w, p + w) (by omega) win' hwin' win hwin
        hin' hin
    · exact mergeRec_same_window rest sp hmono (hne sp (by simp))
        (fun x hx => hne x (by simp [hx]))

/-- C2 witness: the theorem instantiated at peaks `[3, 4, 30]` with radius 2
(the hypothesis `0 ≤ 2` discharged by computation). -/
theorem c2_expand_and_merge_spec_witness :
    (0 : Int) ≤ 2 ∧
    (∃ win ∈ expand_and_merge [3, 4, 30] 2, spanIn win (3 - 2, 3 + 2) ∧
      ∀ win' ∈ expand_and_merge [3, 4, 30] 2, spanIn win' (3 - 2, 3 + 2) →
        win' = win) :=
  ⟨by decide,
   (c2_expand_and_merge_spec [3, 4, 30] 2 (by decide)).2.2.2.1 3 (by decide)⟩

/-! ### C6: normalization is not idempotent -/

/-- C6: `normalize_text` is not idempotent, contradicting the spec's
testable property.  On `"a tv tv b"` the first pass replaces only the first
`" tv "` (its trailing space is consumed, so the overlapping second
occurrence is missed), giving `"a television tv b"`; a second pass then
rewrites the surviving `" tv "` as well, giving
`"a television television b"`. -/
theorem c6_normalize_not_idempotent :
    normalize_text "a tv tv b" = "a television tv b" ∧
    normalize_text (normalize_text "a tv tv b") = "a television television b" ∧
    normalize_text (normalize_text "a tv tv b") ≠ normalize_text "a tv tv b" :=
  ⟨by decide, by decide, by decide⟩

/-! ### Structural facts about the extractor -/

theorem counterIncr_ne_nil {α : Type} [DecidableEq α] (c : List (α × Nat))
    (k : α) : counterIncr c k ≠ [] := by
  cases c with
  | nil => simp [counterIncr]
  | cons kv rest =>
    rw [counterIncr]
    by_cases h : kv.1 = k <;> simp [h]

theorem variantsGet_variantsIncr_ne_nil
    (v : List (String × List (String × Nat))) (norm cand : String) :
    variantsGet (variantsIncr v norm cand) norm ≠ [] := by
  induction v with
  | nil => simp [variantsIncr, variantsGet]
  | cons p rest ih =>
    rw [variantsIncr]
    by_cases h : p.1 = norm
    · rw [if_pos h, variantsGet]
      simp only [List.find?_cons, h, beq_self_eq_true]
      exact counterIncr_ne_nil p.2 cand
    · rw [if_neg h, variantsGet, List.find?_cons]
      have hne : (p.1 == norm) = false := beq_eq_false_iff_ne.mpr h
      rw [hne]
      exact ih

theorem sortCD_ne_nil {α : Type} (l : List (α × Nat)) (h : l ≠ []) :
    sortCD l ≠ [] := by
  intro hcon
  have hlen : (sortCD l).length = l.length := (sortBy_perm countLe l).length_eq
  rw [hcon] at hlen
  exact h (List.length_eq_zero.mp hlen.symm)

theorem extract_award_none_state (st : AwardState) (side : String) :
    ∀ res, extract_award_from_side st side = (none, res) → res = st := by
  intro res h
  rw [extract_award_from_side] at h
  cases hC : awardCandidate side with
  | none =>
    rw [hC] at h
    exact (congrArg Prod.snd h).symm
  | some cand =>
    rw [hC] at h
    dsimp only at h
    by_cases hlen : (normalize_text cand).length < 8
    · rw [if_pos hlen] at h
      exact (congrArg Prod.snd h).symm
    · rw [if_neg hlen] at h
      cases hH : (sortCD (variantsGet
          (variantsIncr st.variants (normalize_text cand) cand)
          (normalize_text cand))).head? with
      | some kv =>
        rw [hH] at h
        exact absurd (congrArg Prod.fst h) (by simp)
      | none =>
        exfalso
        exact (sortCD_ne_nil _
          (variantsGet_variantsIncr_ne_nil st.variants (normalize_text cand) cand))
          (List.head?_eq_none_iff.mp hH)

theorem gen_eq_winB_winA (ents : String → List Ent) (st : AwardState)
    (text : String) :
    generate_from_text ents st text =
      match winBFull ents st text with
      | some (c, st1) => ([c], st1)
      | none => winAOnly ents st text := by
  rw [generate_from_text, winBFull, winAOnly]
  cases hB : split3 winBVariants text with
  | none => rfl
  | some v =>
    obtain ⟨l, a, r⟩ := v
    dsimp only
    cases hN : filter_name ents r with
    | nil => rfl
    | cons subj rest =>
      dsimp only
      cases hE : extract_award_from_side st l with
      | mk awardOpt st1 =>
        cases awardOpt with
        | some award => rfl
        | none =>
          have hst : st1 = st := extract_award_none_state st l st1 hE
          subst hst
          rfl

/-! ### C10: at most one candidate per call -/

/-- C10: a single call to the candidate generator — in either version of the
pipeline — returns at most one candidate. -/
theorem c10_at_most_one_candidate (ents : String → List Ent) (st : AwardState)
    (text : String) :
    (generate_from_text ents st text).1.length ≤ 1 ∧
    (generate_from_text_dirty ents st text).1.length ≤ 1 := by
  constructor
  · rw [gen_eq_winB_winA]
    cases winBFull ents st text with
    | some p => simp
    | none =>
      rw [winAOnly]
      repeat' split
      all_goals simp
  · rw [generate_from_text_dirty]
    repeat' split
    all_goals simp

/-! ### C1: rule priority, first success wins, fall-through -/

/-- C1 (amended): in `candidate_pipeline.py`, the rules are tried in the
fixed order `WIN_B` then `WIN_A`; a full `WIN_B` success (link phrase, a
PERSON on the right, an award phrase on the left) yields exactly that one
candidate and `WIN_A` is never consulted, while any `WIN_B` failure —
including a matched link phrase whose entity side yields no PERSON mention —
falls through to the pure `WIN_A` extraction.  In
`candidate_pipeline_dirty.py`, by contrast, a `WIN_B` link match with no
PERSON on the right ends extraction immediately with no candidate. -/
theorem c1_priority_first_success (ents : String → List Ent) (st : AwardState)
    (text : String) :
    (generate_from_text ents st text =
      match winBFull ents st text with
      | some (c, st1) => ([c], st1)
      | none => winAOnly ents st text) ∧
    (∀ l a r, split3 winBVariants text = some (l, a, r) →
      filter_name ents r = [] →
      generate_from_text_dirty ents st text = ([], st)) := by
  refine ⟨gen_eq_winB_winA ents st text, ?_⟩
  intro l a r hB hN
  rw [generate_from_text_dirty, hB]
  dsimp only
  rw [hN]

/-- C1 counterexample: the claim's fall-through conjunct is false for the
dirty pipeline.  On the text
`"Meryl Streep wins Best Actress Drama and it goes to nobody"`, `WIN_B`'s
link phrase matches with no PERSON on its right side; the dirty generator
returns no candidate at all instead of falling through to `WIN_A`, which
fires. -/
theorem c1_dirty_no_fallthrough : ¬ claimC1dirtyFallThrough := fun h => by
  have h2 := h merylOracle st0 tMeryl
    "Meryl Streep wins Best Actress Drama and it" "goes to" "nobody"
    (by decide) (by decide)
  exact absurd h2 (by decide)

/-- C1 witness: concrete instantiation of the amended theorem's dirty
conjunct, hypotheses discharged by computation. -/
theorem c1_priority_first_success_witness :
    split3 winBVariants tMeryl =
      some ("Meryl Streep wins Best Actress Drama and it", "goes to", "nobody") ∧
    filter_name merylOracle "nobody" = [] ∧
    generate_from_text_dirty merylOracle st0 tMeryl = ([], st0) :=
  ⟨by decide, by decide,
   (c1_priority_first_success merylOracle st0 tMeryl).2
     "Meryl Streep wins Best Actress Drama and it" "goes to" "nobody"
     (by decide) (by decide)⟩

/-! ### C5: entity typing of the subject -/

theorem winAOnly_cases (ents : String → List Ent) (st : AwardState)
    (text : String) :
    winAOnly ents st text = ([], st) ∨
    (∃ l a r subj rest award st1,
      split3 winAVariants text = some (l, a, r) ∧
      filter_name ents l = subj :: rest ∧
      extract_award_from_side st r = (some award, st1) ∧
      winAOnly ents st text = ([⟨"WIN_A", award, a, subj⟩], st1)) := by
  rw [winAOnly]
  cases hA : split3 winAVariants text with
  | none => exact Or.inl rfl
  | some v =>
    obtain ⟨l, a, r⟩ := v
    dsimp only
    cases hN : filter_name ents l with
    | nil => exact Or.inl rfl
    | cons subj rest =>
      dsimp only
      cases hE : extract_award_from_side st r with
      | mk aw st1 =>
        cases aw with
        | some award =>
          exact Or.inr ⟨l, a, r, subj, rest, award, st1, rfl, hN, hE, rfl⟩
        | none =>
          have hst : st1 = st := extract_award_none_state st r st1 hE
          subst hst
          exact Or.inl rfl

theorem winBFull_some (ents : String → List Ent) (st : AwardState)
    (text : String) (c : Candidate) (st1 : AwardState)
    (h : winBFull ents st text = some (c, st1)) :
    ∃ l a r subj rest award,
      split3 winBVariants text = some (l, a, r) ∧
      filter_name ents r = subj :: rest ∧
      extract_award_from_side st l = (some award, st1) ∧
      c = ⟨"WIN_B", award, a, subj⟩ := by
  rw [winBFull] at h
  cases hB : split3 winBVariants text with
  | none => rw [hB] at h; exact absurd h (by simp)
  | some v =>
    obtain ⟨l, a, r⟩ := v
    rw [hB] at h
    dsimp only at h
    cases hN : filter_name ents r with
    | nil => rw [hN] at h; exact absurd h (by simp)
    | cons subj rest =>
      rw [hN] at h
      dsimp only at h
      cases hE : extract_award_from_side st l with
      | mk aw stx =>
        rw [hE] at h
        cases aw with
        | none => exact absurd h (by simp)
        | some award =>
          dsimp only at h
          obtain ⟨h1, h2⟩ := Prod.mk.injEq _ _ _ _ ▸ Option.some.inj h
          subst h2
          exact ⟨l, a, r, subj, rest, award, rfl, hN, hE, h1.symm⟩

theorem generate_cases (ents : String → List Ent) (st : AwardState)
    (text : String) :
    (generate_from_text ents st text).1 = [] ∨
    (∃ l a r subj rest award st1,
      split3 winBVariants text = some (l, a, r) ∧
      filter_name ents r = subj :: rest ∧
      extract_award_from_side st l = (some award, st1) ∧
      generate_from_text ents st text = ([⟨"WIN_B", award, a, subj⟩], st1)) ∨
    (∃ l a r subj rest award st1,
      split3 winAVariants text = some (l, a, r) ∧
      filter_name ents l = subj :: rest ∧
      extract_award_from_side st r = (some award, st1) ∧
      generate_from_text ents st text = ([⟨"WIN_A", award, a, subj⟩], st1)) := by
  have hgen := gen_eq_winB_winA ents st text
  cases hBF : winBFull ents st text with
  | some p =>
    obtain ⟨c, st1⟩ := p
    rw [hBF] at hgen
    obtain ⟨l, a, r, subj, rest, award, hB, hN, hE, hc⟩ :=
      winBFull_some ents st text c st1 hBF
    subst hc
    exact Or.inr (Or.inl ⟨l, a, r, subj, rest, award, st1, hB, hN, hE, hgen⟩)
  | none =>
    rw [hBF] at hgen
    dsimp only at hgen
    rcases winAOnly_cases ents st text with h |
      ⟨l, a, r, subj, rest, award, st1, hA, hN, hE, hW⟩
    · exact Or.inl (by rw [hgen, h])
    · exact Or.inr (Or.inr ⟨l, a, r, subj, rest, award, st1, hA, hN, hE,
        by rw [hgen, hW]⟩)

/-- C5 (amended): every candidate the generator produces takes its subject
from the PERSON-typed mentions of the designated entity side — the right
side for `WIN_B`, the left side for `WIN_A` — namely the first PERSON
mention there; no keyword test and no WORK-typed branch exists in the
source. -/
theorem c5_subject_first_person (ents : String → List Ent) (st : AwardState)
    (text : String) (c : Candidate)
    (hc : c ∈ (generate_from_text ents st text).1) :
    (c.rule_id = "WIN_B" ∨ c.rule_id = "WIN_A") ∧
    ∃ side, entitySide text c.rule_id = some side ∧
      (filter_name ents side).head? = some c.subject := by
  rcases generate_cases ents st text with h |
    ⟨l, a, r, subj, rest, award, st1, hB, hN, hE, hG⟩ |
    ⟨l, a, r, subj, rest, award, st1, hA, hN, hE, hG⟩
  · rw [h] at hc; simp at hc
  · rw [hG] at hc
    have hceq : c = ⟨"WIN_B", award, a, subj⟩ := List.mem_singleton.mp hc
    subst hceq
    refine ⟨Or.inl rfl, r, ?_, ?_⟩
    · show entitySide text "WIN_B" = some r
      rw [entitySide, if_pos rfl, hB]
      rfl
    · rw [hN]; rfl
  · rw [hG] at hc
    have hceq : c = ⟨"WIN_A", award, a, subj⟩ := List.mem_singleton.mp hc
    subst hceq
    refine ⟨Or.inr rfl, l, ?_, ?_⟩
    · show entitySide text "WIN_A" = some l
      rw [entitySide, if_neg (by decide), hA]
      rfl
    · rw [hN]; rfl

/-- C5 counterexample: on `"Ang Lee wins Best Motion Picture Drama"` with an
NER oracle returning a PERSON and a WORK mention for the left side, the
category phrase is not person-oriented, so the claim demands the first
WORK-typed mention (`"Life of Pi"`) as subject; the source's `filter_name`
keeps only PERSON mentions and the produced subject is `"Ang Lee"`. -/
theorem c5_person_only_counterexample : ¬ claimC5 := fun h => by
  obtain ⟨side, hside, m, hm, hsubj⟩ :=
    h angLeeOracle st0 tAngLee cAngLee (by decide)
  have h1 : entitySide tAngLee cAngLee.rule_id = some "Ang Lee" := by decide
  rw [h1] at hside
  have hs : side = "Ang Lee" := (Option.some.inj hside).symm
  subst hs
  have h2 : ((angLeeOracle "Ang Lee").filter (fun e =>
      e.label == (if specPersonOriented cAngLee.award_name then "PERSON"
        else "WORK"))).head? = some ⟨"Life of Pi", "WORK"⟩ := by decide
  have hm2 : (⟨"Life of Pi", "WORK"⟩ : Ent) = m :=
    Option.some.inj (h2.symm.trans hm)
  rw [← hm2] at hsubj
  exact absurd hsubj (by decide)

/-- C5 witness: the amended theorem instantiated on a concrete text and
oracle, the membership hypothesis discharged by computation. -/
theorem c5_subject_first_person_witness :
    cAngLee ∈ (generate_from_text angLeeOracle st0 tAngLee).1 ∧
    ((cAngLee.rule_id = "WIN_B" ∨ cAngLee.rule_id = "WIN_A") ∧
      ∃ side, entitySide tAngLee cAngLee.rule_id = some side ∧
        (filter_name angLeeOracle side).head? = some cAngLee.subject) :=
  ⟨by decide, c5_subject_first_person angLeeOracle st0 tAngLee cAngLee (by decide)⟩

/-! ### C7: determinism of repeated extraction -/

theorem counterIncr_mem {α : Type} [DecidableEq α] (c : List (α × Nat)) (k : α) :
    ∀ kv ∈ counterIncr c k, kv.1 = k ∨ kv ∈ c := by
  induction c with
  | nil =>
    intro kv hkv
    rw [counterIncr] at hkv
    simp at hkv
    exact Or.inl (by rw [hkv])
  | cons q rest ih =>
    intro kv hkv
    rw [counterIncr] at hkv
    by_cases h : q.1 = k
    · rw [if_pos h] at hkv
      rcases List.mem_cons.mp hkv with h2 | h2
      · exact Or.inl (by rw [h2, ← h])
      · exact Or.inr (List.mem_cons_of_mem q h2)
    · rw [if_neg h] at hkv
      rcases List.mem_cons.mp hkv with h2 | h2
      · exact Or.inr (by rw [h2]; exact List.mem_cons_self q rest)
      · rcases ih kv h2 with h3 | h3
        · exact Or.inl h3
        · exact Or.inr (List.mem_cons_of_mem q h3)

theorem variantsGet_incr_mem (v : List (String × List (String × Nat)))
    (norm cand : String) :
    ∀ kv ∈ variantsGet (variantsIncr v norm cand) norm,
      kv.1 = cand ∨ kv ∈ variantsGet v norm := by
  induction v with
  | nil =>
    intro kv hkv
    simp [variantsIncr, variantsGet] at hkv
    exact Or.inl (by rw [hkv])
  | cons q rest ih =>
    intro kv hkv
    rw [variantsIncr] at hkv
    by_cases h : q.1 = norm
    · rw [if_pos h, variantsGet, List.find?_cons] at hkv
      have hq : (q.1 == norm) = true := beq_iff_eq.mpr h
      rw [hq] at hkv
      dsimp only at hkv
      rcases counterIncr_mem q.2 cand kv hkv with h2 | h2
      · exact Or.inl h2
      · refine Or.inr ?_
        rw [variantsGet, List.find?_cons, hq]
        exact h2
    · rw [if_neg h, variantsGet, List.find?_cons] at hkv
      have hq : (q.1 == norm) = false := beq_eq_false_iff_ne.mpr h
      rw [hq] at hkv
      rcases ih kv hkv with h2 | h2
      · exact Or.inl h2
      · refine Or.inr ?_
        rw [variantsGet, List.find?_cons, hq]
        exact h2

theorem find?_pred {α : Type} (f : α → Bool) :
    ∀ (l : List α) (x : α), l.find? f = some x → f x = true := by
  intro l
  induction l with
  | nil => intro x h; simp at h
  | cons a t ih =>
    intro x h
    rw [List.find?_cons] at h
    cases hf : f a
    · rw [hf] at h
      simp only [Bool.false_eq_true, if_false] at h
      exact ih x h
    · rw [hf] at h
      simp only [if_true] at h
      rw [← Option.some.inj h]
      exact hf

theorem variantsGet_wf (v : List (String × List (String × Nat)))
    (hwf : ∀ p ∈ v, ∀ vc ∈ p.2, normalize_text vc.1 = p.1) (norm : String) :
    ∀ kv ∈ variantsGet v norm, normalize_text kv.1 = norm := by
  rw [variantsGet]
  cases hF : v.find? (fun p => p.1 == norm) with
  | none => simp
  | some p =>
    intro kv hkv
    have hp : p ∈ v := List.mem_of_find?_eq_some hF
    have hpred := find?_pred (fun q : String × List (String × Nat) => q.1 == norm)
      v p hF
    rw [← beq_iff_eq.mp hpred]
    exact hwf p hp kv hkv

theorem WFvar_incr (v : List (String × List (String × Nat)))
    (hwf : ∀ p ∈ v, ∀ vc ∈ p.2, normalize_text vc.1 = p.1)
    (norm cand : String) (hnorm : normalize_text cand = norm) :
    ∀ p ∈ variantsIncr v norm cand, ∀ vc ∈ p.2, normalize_text vc.1 = p.1 := by
  induction v with
  | nil =>
    intro p hp vc hvc
    simp only [variantsIncr, List.mem_singleton] at hp
    subst hp
    simp only [List.mem_singleton] at hvc
    subst hvc
    exact hnorm
  | cons q rest ih =>
    intro p hp vc hvc
    rw [variantsIncr] at hp
    by_cases h : q.1 = norm
    · rw [if_pos h] at hp
      rcases List.mem_cons.mp hp with h2 | h2
      · rw [h2] at hvc ⊢
        rcases counterIncr_mem q.2 cand vc hvc with h3 | h3
        · rw [h3]
          show normalize_text cand = q.1
          rw [hnorm, h]
        · exact hwf q (List.mem_cons_self q rest) vc h3
      · exact hwf p (List.mem_cons_of_mem q h2) vc hvc
    · rw [if_neg h] at hp
      rcases List.mem_cons.mp hp with h2 | h2
      · rw [h2] at hvc ⊢
        exact hwf q (List.mem_cons_self q rest) vc hvc
      · exact ih (fun x hx => hwf x (List.mem_cons_of_mem q hx)) p h2 vc hvc

theorem extract_award_some (st : AwardState) (side cand : String)
    (hwf : WFState st) (hC : awardCandidate side = some cand)
    (hlen : ¬ (normalize_text cand).length < 8) :
    ∃ award, extract_award_from_side st side =
      (some award, ⟨counterIncr st.freq (normalize_text cand),
        variantsIncr st.variants (normalize_text cand) cand⟩) ∧
      normalize_text award = normalize_text cand := by
  rw [extract_award_from_side, hC]
  dsimp only
  rw [if_neg hlen]
  cases hH : (sortCD (variantsGet
      (variantsIncr st.variants (normalize_text cand) cand)
      (normalize_text cand))).head? with
  | none =>
    exact absurd (List.head?_eq_none_iff.mp hH)
      (sortCD_ne_nil _
        (variantsGet_variantsIncr_ne_nil st.variants (normalize_text cand) cand))
  | some kv =>
    refine ⟨kv.1, rfl, ?_⟩
    have hkv : kv ∈ sortCD (variantsGet
        (variantsIncr st.variants (normalize_text cand) cand)
        (normalize_text cand)) := by
      have : kv ∈ (sortCD (variantsGet
          (variantsIncr st.variants (normalize_text cand) cand)
          (normalize_text cand))).head? := by rw [hH]; rfl
      exact List.mem_of_mem_head? this
    have hkv2 : kv ∈ variantsGet
        (variantsIncr st.variants (normalize_text cand) cand)
        (normalize_text cand) :=
      ((sortBy_perm countLe _).mem_iff).mp hkv
    rcases variantsGet_incr_mem st.variants (normalize_text cand) cand kv hkv2
      with h | h
    · rw [h]
    · exact variantsGet_wf st.variants hwf (normalize_text cand) kv h

theorem extract_award_wf (st : AwardState) (side : String) (hwf : WFState st) :
    WFState (extract_award_from_side st side).2 := by
  rw [extract_award_from_side]
  cases hC : awardCandidate side with
  | none => exact hwf
  | some cand =>
    dsimp only
    by_cases hlen : (normalize_text cand).length < 8
    · rw [if_pos hlen]; exact hwf
    · rw [if_neg hlen]
      cases hH : (sortCD (variantsGet
          (variantsIncr st.variants (normalize_text cand) cand)
          (normalize_text cand))).head? with
      | some kv =>
        exact fun p hp vc hvc =>
          WFvar_incr st.variants hwf (normalize_text cand) cand rfl p hp vc hvc
      | none =>
        exact fun p hp vc hvc =>
          WFvar_incr st.variants hwf (normalize_text cand) cand rfl p hp vc hvc

theorem winAOnly_stable (ents : String → List Ent) (st st' : AwardState)
    (text : String) (hwf : WFState st) (hwf' : WFState st') :
    StableOut (winAOnly ents st text) (winAOnly ents st' text) := by
  unfold StableOut
  simp only [winAOnly]
  cases hA : split3 winAVariants text with
  | none => exact ⟨rfl, fun c c' hc => by simp at hc, hwf⟩
  | some v =>
    obtain ⟨l, a, r⟩ := v
    dsimp only
    cases hN : filter_name ents l with
    | nil => exact ⟨rfl, fun c c' hc => by simp at hc, hwf⟩
    | cons subj rest =>
      dsimp only
      cases hC : awardCandidate r with
      | none =>
        have h1 : extract_award_from_side st r = (none, st) := by
          rw [extract_award_from_side, hC]
        have h1' : extract_award_from_side st' r = (none, st') := by
          rw [extract_award_from_side, hC]
        rw [h1, h1']
        exact ⟨rfl, fun c c' hc => by simp at hc, hwf⟩
      | some cand =>
        by_cases hlen : (normalize_text cand).length < 8
        · have h1 : extract_award_from_side st r = (none, st) := by
            rw [extract_award_from_side, hC]; dsimp only; rw [if_pos hlen]
          have h1' : extract_award_from_side st' r = (none, st') := by
            rw [extract_award_from_side, hC]; dsimp only; rw [if_pos hlen]
          rw [h1, h1']
          exact ⟨rfl, fun c c' hc => by simp at hc, hwf⟩
        · obtain ⟨award, hE, hnorm⟩ := extract_award_some st r cand hwf hC hlen
          obtain ⟨award', hE', hnorm'⟩ :=
            extract_award_some st' r cand hwf' hC hlen
          rw [hE, hE']
          refine ⟨rfl, ?_, ?_⟩
          · intro c c' hc hc'
            rw [List.mem_singleton.mp hc, List.mem_singleton.mp hc']
            exact ⟨rfl, rfl, rfl, hnorm.trans hnorm'.symm⟩
          · exact fun p hp vc hvc =>
              WFvar_incr st.variants hwf (normalize_text cand) cand rfl p hp vc hvc

/-- C7 (amended): re-running the extractor on the same text with the same
NER oracle, from any two well-formed accumulator states, fires the same
rule and yields the same number of candidates with the same subject, the
same anchor and the same normalized award phrase, and leaves a well-formed
state; the award's surface spelling, however, is the most frequent recorded
variant and may differ between runs (see the counterexample). -/
theorem c7_extraction_stable_modulo_surface (ents : String → List Ent)
    (st st' : AwardState) (text : String)
    (hwf : WFState st) (hwf' : WFState st') :
    StableOut (generate_from_text ents st text)
      (generate_from_text ents st' text) := by
  rw [gen_eq_winB_winA ents st text, gen_eq_winB_winA ents st' text]
  simp only [winBFull]
  cases hB : split3 winBVariants text with
  | none => exact winAOnly_stable ents st st' text hwf hwf'
  | some v =>
    obtain ⟨l, a, r⟩ := v
    dsimp only
    cases hN : filter_name ents r with
    | nil => exact winAOnly_stable ents st st' text hwf hwf'
    | cons subj rest =>
      dsimp only
      cases hC : awardCandidate l with
      | none =>
        have h1 : extract_award_from_side st l = (none, st) := by
          rw [extract_award_from_side, hC]
        have h1' : extract_award_from_side st' l = (none, st') := by
          rw [extract_award_from_side, hC]
        rw [h1, h1']
        exact winAOnly_stable ents st st' text hwf hwf'
      | some cand =>
        by_cases hlen : (normalize_text cand).length < 8
        · have h1 : extract_award_from_side st l = (none, st) := by
            rw [extract_award_from_side, hC]; dsimp only; rw [if_pos hlen]
          have h1' : extract_award_from_side st' l = (none, st') := by
            rw [extract_award_from_side, hC]; dsimp only; rw [if_pos hlen]
          rw [h1, h1']
          exact winAOnly_stable ents st st' text hwf hwf'
        · obtain ⟨award, hE, hnorm⟩ := extract_award_some st l cand hwf hC hlen
          obtain ⟨award', hE', hnorm'⟩ :=
            extract_award_some st' l cand hwf' hC hlen
          rw [hE, hE']
          refine ⟨rfl, ?_, ?_⟩
          · intro c c' hc hc'
            rw [List.mem_singleton.mp hc, List.mem_singleton.mp hc']
            exact ⟨rfl, rfl, rfl, hnorm.trans hnorm'.symm⟩
          · exact fun p hp vc hvc =>
              WFvar_incr st.variants hwf (normalize_text cand) cand rfl p hp vc hvc

/-- C7 counterexample: the extractor's output does depend on which other
texts were processed between two calls.  Extracting
`"Adele wins Best Foreign Film"` from the fresh state yields the award
surface `"Best Foreign Film"`; after three interleaved extractions of
`"Adele wins BEST FOREIGN FILM"` (same normalized key), re-running the very
same text returns `"BEST FOREIGN FILM"` instead. -/
theorem c7_surface_instability : ¬ claimC7 := fun h =>
  absurd (h adeleOracle [] [tAdele2, tAdele2, tAdele2] tAdele1) (by decide)

/-- C7 witness: the amended theorem applied to the empty (well-formed)
state on both sides, hypotheses discharged by unfolding. -/
theorem c7_extraction_stable_modulo_surface_witness :
    WFState st0 ∧
    StableOut (generate_from_text adeleOracle st0 tAdele1)
      (generate_from_text adeleOracle st0 tAdele1) :=
  ⟨fun p hp => absurd hp (List.not_mem_nil p),
   c7_extraction_stable_modulo_surface adeleOracle st0 st0 tAdele1
     (fun p hp => absurd hp (List.not_mem_nil p))
     (fun p hp => absurd hp (List.not_mem_nil p))⟩

/-! ### C8: runner-up reporting -/

/-- C8 counterexample: with six distinct entities receiving votes, the
source reports only four runner-ups (`most_common(5)[1:]` is the top five
including the winner, minus the winner), not the five the claim states. -/
theorem c8_runner_up_counterexample : ¬ claimC8 := fun h =>
  absurd
    (h "Best Picture" [("a", 6), ("b", 5), ("c", 4), ("d", 3), ("e", 2), ("f", 1)] 21)
    (by decide)

/-- C8 (amended): the reported runner-ups are the top-5 entities including
the winner with the winner removed — hence at most four of them, exactly
four whenever at least five distinct entities received votes — sorted by
vote count descending, all drawn from the tally, and never containing the
winner (for a tally with distinct entity keys). -/
theorem c8_runner_up_amended (award : String) (ctr : List (String × Nat))
    (total : Nat) :
    (electOne award ctr total).runner_up.length = min 4 (ctr.length - 1) ∧
    List.Pairwise (fun a b : String × Nat => b.2 ≤ a.2)
      (electOne award ctr total).runner_up ∧
    (∀ x ∈ (electOne award ctr total).runner_up, x ∈ ctr) ∧
    ((ctr.map (fun p => p.1)).Nodup →
      ∀ x ∈ (electOne award ctr total).runner_up,
        x.1 ≠ (electOne award ctr total).winner) ∧
    (5 ≤ ctr.length → (electOne award ctr total).runner_up.length = 4) := by
  have hlen : (sortCD ctr).length = ctr.length := (sortBy_perm countLe ctr).length_eq
  have hru : (electOne award ctr total).runner_up = ((sortCD ctr).take 5).drop 1 :=
    rfl
  have hlenru : (electOne award ctr total).runner_up.length = min 4 (ctr.length - 1) := by
    rw [hru, List.length_drop, List.length_take, hlen]
    omega
  have hsub : List.Sublist (((sortCD ctr).take 5).drop 1) (sortCD ctr) :=
    ((List.drop_sublist 1 _).trans (List.take_sublist 5 _))
  refine ⟨hlenru, ?_, ?_, ?_, ?_⟩
  · rw [hru]
    exact (sortCD_pairwise ctr).sublist hsub
  · intro x hx
    rw [hru] at hx
    exact ((sortBy_perm countLe ctr).mem_iff).mp (hsub.subset hx)
  · intro hnd x hx hxw
    rw [hru] at hx
    have hndS : ((sortCD ctr).map (fun p => p.1)).Nodup :=
      (((sortBy_perm countLe ctr).map (fun p => p.1)).nodup_iff).mpr hnd
    cases hS : sortCD ctr with
    | nil => rw [hS] at hx; simp at hx
    | cons hd tl =>
      rw [hS] at hx hndS
      have hw : (electOne award ctr total).winner = hd.1 := by
        show ((sortCD ctr).head?.getD ("", 0)).1 = hd.1
        rw [hS]
        rfl
      rw [hw] at hxw
      have hxtl : x ∈ tl := by
        have : (hd :: tl).take 5 = hd :: tl.take 4 := rfl
        rw [this] at hx
        exact (List.take_sublist 4 tl).subset hx
      rw [List.map_cons, List.nodup_cons] at hndS
      exact hndS.1 (hxw ▸ List.mem_map_of_mem (fun p => p.1) hxtl)
  · intro h5
    rw [hlenru]
    omega

/-- C8 witness: the amended theorem instantiated on a six-entity tally with
distinct keys, hypotheses discharged by computation. -/
theorem c8_runner_up_amended_witness :
    (ctrC8.map (fun p => p.1)).Nodup ∧
    ("b", 5) ∈ (electOne "Best Picture" ctrC8 21).runner_up ∧
    ¬ ("b", 5).1 = (electOne "Best Picture" ctrC8 21).winner :=
  ⟨by decide, by decide,
   (c8_runner_up_amended "Best Picture" ctrC8 21).2.2.2.1
     (by decide) ("b", 5) (by decide)⟩

/-! ### C3: low-confidence flag -/

/-- C3: for every result the consensus voter reports, the low-confidence
flag equals exactly `winner_share < LOW_CONF_SHARE` with the fixed threshold
`LOW_CONF_SHARE = 0.55`, `winner_share` being the exact ratio
`votes_for_winner / total_votes`; and a category whose tally holds exactly
one entity always has `winner_share = 1` and is never low-confidence. -/
theorem c3_low_confidence_correct :
    (∀ (vmap : String → Option String) (records : List CandRecord)
      (rs : List ElectionResult) (r : ElectionResult),
      mainModel vmap records = Except.ok rs → r ∈ rs →
      r.low_confidence = decide (r.winner_share < LOW_CONF_SHARE)) ∧
    (∀ (award person : String) (n : Nat), 0 < n →
      (electOne award [(person, n)] n).winner_share = 1 ∧
      (electOne award [(person, n)] n).low_confidence = false) := by
  constructor
  · intro vmap records rs r hok hr
    rw [mainModel] at hok
    by_cases h0 : (records.foldl (tallyStep vmap) ([], [], 0)).2.2 = 0
    · rw [if_pos h0] at hok; exact absurd hok (by simp)
    · rw [if_neg h0] at hok
      have hrs : rs = sortBy awardLe
          ((records.foldl (tallyStep vmap) ([], [], 0)).1.map (fun p =>
            electOne p.1 p.2
              (countGet (records.foldl (tallyStep vmap) ([], [], 0)).2.1 p.1))) :=
        (Except.ok.inj hok).symm
      subst hrs
      have hr2 := ((sortBy_perm awardLe _).mem_iff).mp hr
      obtain ⟨p, -, hp⟩ := List.mem_map.mp hr2
      rw [← hp]
      rfl
  · intro award person n hn
    have hne : (n : ℚ) ≠ 0 := Nat.cast_ne_zero.mpr (Nat.pos_iff_ne_zero.mp hn)
    have hshare : (electOne award [(person, n)] n).winner_share = 1 := by
      show (if n = 0 then (0 : ℚ) else (n : ℚ) / (n : ℚ)) = 1
      rw [if_neg (Nat.pos_iff_ne_zero.mp hn), div_self hne]
    refine ⟨hshare, ?_⟩
    show decide ((electOne award [(person, n)] n).winner_share < LOW_CONF_SHARE)
      = false
    rw [hshare]
    rw [LOW_CONF_SHARE]
    norm_num

/-- C3 witness: the theorem applied to a concrete one-record run, hypotheses
discharged by computation. -/
theorem c3_low_confidence_correct_witness :
    mainModel vmapNone recsC3 =
      Except.ok [electOne "Best Picture Drama" [("Argo", 1)] 1] ∧
    electOne "Best Picture Drama" [("Argo", 1)] 1 ∈
      [electOne "Best Picture Drama" [("Argo", 1)] 1] ∧
    (electOne "Best Picture Drama" [("Argo", 1)] 1).low_confidence =
      decide ((electOne "Best Picture Drama" [("Argo", 1)] 1).winner_share <
        LOW_CONF_SHARE) ∧
    0 < 1 ∧ (electOne "b" [("p", 1)] 1).winner_share = 1 :=
  ⟨by rfl, List.mem_singleton.mpr rfl,
   c3_low_confidence_correct.1 vmapNone recsC3 _ _ (by rfl)
     (List.mem_singleton.mpr rfl),
   Nat.one_pos, (c3_low_confidence_correct.2 "b" "p" 1 Nat.one_pos).1⟩

/-! ### C9: completion of the voting stage -/

theorem tallyStep_kept (vmap : String → Option String)
    (acc : List (String × List (String × Nat)) × List (String × Nat) × Nat)
    (c : CandRecord) :
    (tallyStep vmap acc c).2.2 =
      acc.2.2 + (if usableB vmap c = true then 1 else 0) := by
  rw [tallyStep, usableB]
  by_cases h1 : (recordFields c).1 = "" ∨
      pyLower (recordFields c).1 = "unrecognizable award"
  · rw [if_pos h1]
    have : ((recordFields c).1 == "" ||
        pyLower (recordFields c).1 == "unrecognizable award") = true := by
      rcases h1 with h | h
      · simp [h]
      · simp [h]
    simp [this]
  · rw [if_neg h1]
    push_neg at h1
    have hb1 : ((recordFields c).1 == "" ||
        pyLower (recordFields c).1 == "unrecognizable award") = false := by
      simp only [Bool.or_eq_false_iff, beq_eq_false_iff_ne]
      exact h1
    by_cases h2 : (recordFields c).2 = ""
    · rw [if_pos h2]
      simp [hb1, h2]
    · rw [if_neg h2]
      by_cases h3 : canonicalize_award vmap (recordFields c).1 = ""
      · rw [if_pos h3]
        simp [hb1, h2, h3]
      · rw [if_neg h3]
        simp [hb1, h2, h3]

theorem tally_kept (vmap : String → Option String) :
    ∀ (records : List CandRecord)
      (acc : List (String × List (String × Nat)) × List (String × Nat) × Nat),
      (records.foldl (tallyStep vmap) acc).2.2 =
        acc.2.2 + records.countP (usableB vmap) := by
  intro records
  induction records with
  | nil => intro acc; simp
  | cons c rest ih =>
    intro acc
    show (rest.foldl (tallyStep vmap) (tallyStep vmap acc c)).2.2 = _
    rw [ih (tallyStep vmap acc c), tallyStep_kept, List.countP_cons]
    by_cases h : usableB vmap c = true
    · simp [h]
      omega
    · simp [h]

/-- C9 counterexample: the voting stage does not always complete on
well-shaped input.  On the empty candidate array (zero usable records) it
aborts with `SystemExit` ("No usable candidates found") instead of
reporting zero election results. -/
theorem c9_empty_aborts : ¬ claimC9 := fun h => by
  obtain ⟨rs, hrs⟩ := h vmapNone []
  simp [mainModel] at hrs

/-- C9 (amended): per-record anomalies only skip the record; the voting
stage completes with a result list exactly when at least one usable record
exists, and aborts with a diagnostic exactly when no record survives the
per-record guards — including the well-shaped run with zero usable records,
which the claim said would complete. -/
theorem c9_ok_iff_usable (vmap : String → Option String)
    (records : List CandRecord) :
    (mainModel vmap records).isOk = records.any (usableB vmap) := by
  rw [mainModel]
  have hk := tally_kept vmap records ([], [], 0)
  dsimp only at hk
  by_cases h0 : (records.foldl (tallyStep vmap) ([], [], 0)).2.2 = 0
  · rw [if_pos h0]
    rw [h0] at hk
    have hcount : records.countP (usableB vmap) = 0 := by omega
    have : records.any (usableB vmap) = false := by
      rw [Bool.eq_false_iff]
      intro hany
      obtain ⟨x, hx, hpx⟩ := List.any_eq_true.mp hany
      have := List.countP_pos_iff.mpr ⟨x, hx, hpx⟩
      omega
    rw [this]
    rfl
  · rw [if_neg h0]
    have hcount : 0 < records.countP (usableB vmap) := by omega
    obtain ⟨x, hx, hpx⟩ := List.countP_pos_iff.mp hcount
    have : records.any (usableB vmap) = true := List.any_eq_true.mpr ⟨x, hx, hpx⟩
    rw [this]
    rfl

end GG
